import Mathlib

/-!
Verification of the tokenizer core of `soynlp/tokenizer/_tokenizer.py`
(classes `MaxScoreTokenizer` and `MaxLRScoreTokenizer`).

The Python code is shallowly embedded:

* strings are `List Char` (`Word`); Python slicing `t[b:e]` is `pySlice`
  (both clamp out-of-range indices);
* score dictionaries are association lists (`Dict`); `d.get(k, v)` is
  `dictGetD d k v`, `k in d` is `dictHas d k`;
* Python's stable `sorted(xs, key=...)` is the stable insertion sort
  `sortBy le` where `le x y` decides `key x ≤ key y`;
* Python floats are modelled as exact rationals `ℚ`;
* loops that pop from a shrinking pool are modelled with a fuel parameter
  equal to the initial pool length (the fuel never runs out);
* code paths that raise exceptions (notably the `UnboundLocalError` in
  `MaxScoreTokenizer._recursive_tokenize` for words of length ≤ 2, which
  reads the local name `token` before it is assigned) are modelled by
  `Option`, with `none` for the raised exception;
* deleting the list indices collected in `removals` (all indices whose
  element satisfies the overlap test) is modelled by `List.filter` with
  the negated test, which removes exactly the same elements and keeps
  the order of the remaining ones;
* `_score` mutates shared candidate objects (`c.append(total_score)`), so
  a later `word[-2]` read sees the right score of an already kept-and-scored
  candidate instead of its left score.  The embedding therefore processes
  indexed candidates and tracks the set of already-kept indices.
-/

set_option maxRecDepth 40000

abbrev Word := List Char

abbrev Dict := List (Word × ℚ)

/-- Lookup of a key in an association list: first matching entry, like a
Python dict read (keys are unique in an actual Python dict; for duplicated
keys the first entry shadows the later ones). -/
def dictFind (d : Dict) (k : Word) : Option ℚ :=
  (d.find? (fun p => decide (p.1 = k))).map (fun p => p.2)

/-- Python `d.get(k, v)`. -/
def dictGetD (d : Dict) (k : Word) (v : ℚ) : ℚ :=
  (dictFind d k).getD v

/-- Python `k in d`. -/
def dictHas (d : Dict) (k : Word) : Bool :=
  (dictFind d k).isSome

def dictKeys (d : Dict) : List Word :=
  d.map (fun p => p.1)

/-- Python `max(len(w) for w in d) if d else 0` (used for `lmax` / `rmax`). -/
def dictMaxKeyLen (d : Dict) : Nat :=
  (d.map (fun p => p.1.length)).foldl max 0

/-- Python slice `t[b:e]` for `0 ≤ b ≤ e` (indices clamp to the length). -/
def pySlice (s : Word) (b e : Nat) : Word :=
  (s.drop b).take (e - b)

/-- Python `str.split()`: split on whitespace runs, dropping empty pieces. -/
def splitWsAux : Word → Word → List Word
  | [], acc => [acc.reverse]
  | c :: rest, acc =>
    if c.isWhitespace then acc.reverse :: splitWsAux rest []
    else splitWsAux rest (c :: acc)

def splitWs (s : Word) : List Word :=
  (splitWsAux s []).filter (fun w => w ≠ [])

/-- Stable insertion of `a` into `l`: `a` goes in front of the first element
`b` with `le a b`.  Together with `sortBy` this implements a stable sort,
matching Python's `sorted`. -/
def insOrd (le : α → α → Bool) (a : α) : List α → List α
  | [] => [a]
  | b :: l => if le a b then a :: b :: l else b :: insOrd le a l

/-- Stable sort by the boolean relation `le` (insertion sort). -/
def sortBy (le : α → α → Bool) (l : List α) : List α :=
  l.foldr (insOrd le) []

/-- The `Token` namedtuple: `Token(word, b, e, score, length)`. -/
structure Token where
  word : Word
  b : Nat
  e : Nat
  score : ℚ
  length : Nat
deriving DecidableEq

/-- Sort key of `MaxScoreTokenizer._initialize`:
ascending `(-score, -length, b)`, i.e. score descending, then length
descending, then begin ascending. -/
def msKeyLe (x y : Token) : Bool :=
  decide (y.score < x.score) ||
    (decide (x.score = y.score) &&
      (decide (y.length < x.length) ||
        (decide (x.length = y.length) && decide (x.b ≤ y.b))))

/-- Sort key `x.b` ascending (used for the final sorts by begin offset). -/
def tokBLe (x y : Token) : Bool :=
  decide (x.b ≤ y.b)

/-- Candidate enumeration of `MaxScoreTokenizer._initialize` (before the
sort): every begin `b ∈ [0, n-2]` and length `r ∈ [2, min(n, max_len)]`
with `b + r ≤ n`, scored through the dictionary. -/
def msInitCands (scores : Dict) (maxLen : Nat) (u : ℚ) (t : Word) (offset : Nat) :
    List Token :=
  let n := t.length
  let maxR := min n maxLen
  (List.range (n - 1)).flatMap (fun b =>
    ((List.range' 2 (maxR - 1)).filter (fun r => decide (b + r ≤ n))).map (fun r =>
      let sub := pySlice t b (b + r)
      { word := sub, b := offset + b, e := offset + (b + r),
        score := dictGetD scores sub u, length := r }))

/-- `MaxScoreTokenizer._initialize`: the sorted candidate pool. -/
def msInit (scores : Dict) (maxLen : Nat) (u : ℚ) (t : Word) (offset : Nat) :
    List Token :=
  sortBy msKeyLe (msInitCands scores maxLen u t offset)

/-- The overlap test of `MaxScoreTokenizer._find`:
`(b_ < e and b < e_) or (b_ < e and e_ > b)` for picked span `[t.b, t.e)`
and candidate span `[c.b, c.e)` (the two disjuncts are the same test). -/
def msOverlapsPick (t c : Token) : Bool :=
  (decide (c.b < t.e) && decide (t.b < c.e)) ||
    (decide (c.b < t.e) && decide (c.e > t.b))

/-- The greedy selection loop of `MaxScoreTokenizer._find`.  Each round pops
the head of the pool into the result, stops if the pool became empty,
removes all remaining overlapping candidates, increments `num_iter` and
breaks when `num_iter > 100`.  The fuel argument starts at the pool length
and never runs out. -/
def msFindLoop : Nat → Nat → List Token → List Token
  | 0, _, _ => []
  | _ + 1, _, [] => []
  | fuel + 1, numIter, t :: rest =>
    if rest.isEmpty then [t]
    else if numIter + 1 > 100 then [t]
    else t :: msFindLoop fuel (numIter + 1) (rest.filter (fun c => ! msOverlapsPick t c))

/-- `MaxScoreTokenizer._find`: the greedy loop followed by sorting the
result by begin offset. -/
def msFind (scored : List Token) : List Token :=
  sortBy tokBLe (msFindLoop scored.length 0 scored)

/-- `MaxScoreTokenizer._add_inter_subtokens`.  Note that the synthesized
tokens carry the local offsets `base.e - offset` and `next.b - offset`
(the script's `TODO: offset 적용` place). -/
def msAddInter (u : ℚ) (t : Word) (result : List Token) (offset : Nat) : List Token :=
  (result.zip result.tail).filterMap (fun p =>
    if p.1.e = p.2.b then none
    else
      let b := p.1.e - offset
      let e := p.2.b - offset
      some { word := pySlice t b e, b := b, e := e, score := u, length := e - b })

/-- `MaxScoreTokenizer._add_first_subtoken` (always called with its default
`offset = 0`, passed here explicitly by the caller). -/
def msAddFirst (scores : Dict) (u : ℚ) (t : Word) (first : Token) (offset : Nat) :
    List Token :=
  let e := first.b
  let sub := pySlice t 0 (e - offset)
  [{ word := sub, b := offset, e := e, score := dictGetD scores sub u,
     length := e - offset }]

/-- `MaxScoreTokenizer._add_last_subtoken` (its unused `offset` parameter is
omitted). -/
def msAddLast (scores : Dict) (u : ℚ) (t : Word) (last : Token) : List Token :=
  let b := last.e
  let sub := t.drop b
  [{ word := sub, b := b, e := t.length, score := dictGetD scores sub u,
     length := sub.length }]

/-- `MaxScoreTokenizer._recursive_tokenize`.  For a chunk of length ≤ 2 the
source executes `self.scores.get(token, ...)` where the local `token` is
still unassigned, raising `UnboundLocalError`; this is the `none` branch.
The `match` models the `result[-1]` / `result[0]` reads (an `IndexError`
on an empty selection, unreachable for length ≥ 3). -/
def msRecursive (scores : Dict) (maxLen : Nat) (u : ℚ) (t : Word) (offset : Nat) :
    Option (List Token) :=
  let n := t.length
  if n ≤ 2 then
    none
  else
    let scored := msInit scores maxLen u t offset
    let result := msFind scored
    match result.head?, result.getLast? with
    | some first, some last =>
      let adds := msAddInter u t result offset
      let adds := adds ++ (if last.e ≠ n then msAddLast scores u t last else [])
      let adds := adds ++ (if first.b ≠ 0 then msAddFirst scores u t first 0 else [])
      some (sortBy tokBLe (result ++ adds))
    | _, _ => none

/-- `MaxScoreTokenizer.tokenize` over the split chunks, threading the offset
`offset += len(s) + 1`. -/
def msTokenizeChunks (scores : Dict) (maxLen : Nat) (u : ℚ) :
    List Word → Nat → Option (List (List Token))
  | [], _ => some []
  | c :: cs, offset => do
    let toks ← msRecursive scores maxLen u c offset
    let rest ← msTokenizeChunks scores maxLen u cs (offset + c.length + 1)
    pure (toks :: rest)

/-- `MaxScoreTokenizer.tokenize(sentence, flatten=False)`. -/
def msTokenize (scores : Dict) (maxLen : Nat) (u : ℚ) (sentence : Word) :
    Option (List (List Token)) :=
  msTokenizeChunks scores maxLen u (splitWs sentence) 0

/-- `MaxScoreTokenizer.tokenize(sentence, flatten=True)`: the surface words. -/
def msTokenizeFlat (scores : Dict) (maxLen : Nat) (u : ℚ) (sentence : Word) :
    Option (List Word) :=
  (msTokenize scores maxLen u sentence).map (fun ts => ts.flatten.map Token.word)

/-! The left/right tokenizer `MaxLRScoreTokenizer`. -/

/-- A candidate as produced by `_initialize_LR`:
`[l, r, b, e, e+len_r, len_l, len_r, len_l+len_r]`. -/
structure Cand8 where
  l : Word
  r : Word
  p0 : Nat
  p1 : Nat
  p2 : Nat
  lenL : Nat
  lenR : Nat
  lenLR : Nat
deriving DecidableEq

/-- A candidate after `_remove_l_subset` appended the two scores. -/
structure Cand10 extends Cand8 where
  scoreL : ℚ
  scoreR : ℚ
deriving DecidableEq

/-- A candidate after `_score` appended the total score. -/
structure Cand11 extends Cand10 where
  total : ℚ
deriving DecidableEq

/-- The four scoring thresholds of `MaxLRScoreTokenizer.__init__`. -/
structure LRParams where
  maxLscoreDifference : ℚ
  maxLscoreDiffratio : ℚ
  ensurableScoreL : ℚ
  ensurableScoreLRDiff : ℚ
deriving DecidableEq

/-- The constructor defaults `(0.3, 0.5, 0.5, 0.3)`. -/
def lrDefaults : LRParams :=
  ⟨0.3, 0.5, 0.5, 0.3⟩

/-- `MaxLRScoreTokenizer._initialize_L`: all spans `[b, e)` with
`b < e ≤ min(n, b + lmax)` whose text is a key of `Dl`, as
`(l, b, e, e - b)`. -/
def lrInitL (Dl : Dict) (lmax : Nat) (t : Word) : List (Word × Nat × Nat × Nat) :=
  let n := t.length
  (List.range n).flatMap (fun b =>
    (List.range' (b + 1) (min n (b + lmax) - b)).filterMap (fun e =>
      let l := pySlice t b e
      if dictHas Dl l then some (l, b, e, e - b) else none))

/-- `MaxLRScoreTokenizer._initialize_LR`: expand every left candidate by a
right part of length `len_r ∈ [0, min(rmax, n - e)]` that is empty or a key
of `Dr`, rejecting `len_l = 1 ∧ len_r = 0`; sort by the end offset `p2`. -/
def lrInitLR (Dr : Dict) (rmax : Nat) (t : Word)
    (cands : List (Word × Nat × Nat × Nat)) : List Cand8 :=
  let n := t.length
  let expanded := cands.flatMap (fun c =>
    (List.range (min rmax (n - c.2.2.1) + 1)).filterMap (fun lenR =>
      if c.2.2.2 = 1 ∧ lenR = 0 then none
      else
        let e := c.2.2.1
        let r := pySlice t e (e + lenR)
        if r ≠ [] ∧ ¬ dictHas Dr r then none
        else some ⟨c.1, r, c.2.1, e, e + lenR, c.2.2.2, lenR, c.2.2.2 + lenR⟩))
  sortBy (fun x y => decide (x.p2 ≤ y.p2)) expanded

/-- `MaxLRScoreTokenizer._initialize`. -/
def lrCands (Dl Dr : Dict) (lmax rmax : Nat) (t : Word) : List Cand8 :=
  lrInitLR Dr rmax t (lrInitL Dl lmax t)

/-- The score-appending prologue of `_remove_l_subset`:
`c.append(Dl.get(c[0], 0)); c.append(Dr.get(c[1], 0))`. -/
def lrAttachScores (Dl Dr : Dict) (cs : List Cand8) : List Cand10 :=
  cs.map (fun c => { toCand8 := c, scoreL := dictGetD Dl c.l 0,
                     scoreR := dictGetD Dr c.r 0 })

/-- Sort key of `_remove_l_subset`: left score descending. -/
def lrScoreLDescLe (x y : Cand10) : Bool :=
  decide (y.scoreL ≤ x.scoreL)

/-- The suppression test of `_remove_l_subset`: candidate `c` is skipped by
`if c[2] > b or c[3] < e or not (c[2] < b or c[3] > e): continue`, and the
unskipped candidates suppress `best` when the absolute-gap or the
guarded-ratio condition holds. -/
def lrSuppresses (ps : LRParams) (best c : Cand10) : Bool :=
  (! (decide (c.p0 > best.p0) || decide (c.p1 < best.p1) ||
      ! (decide (c.p0 < best.p0) || decide (c.p1 > best.p1)))) &&
    (decide (best.scoreL - c.scoreL < ps.maxLscoreDifference) ||
      (decide (ps.ensurableScoreL * 0.5 < best.scoreL) &&
        decide ((best.scoreL + 1e-5) / (c.scoreL + 1e-5) < ps.maxLscoreDiffratio)))

/-- The pop loop of `_remove_l_subset`: keep `best` unless some remaining
candidate suppresses it. -/
def lrRemoveLoop (ps : LRParams) : List Cand10 → List Cand10
  | [] => []
  | best :: rest =>
    if rest.any (fun c => lrSuppresses ps best c) then lrRemoveLoop ps rest
    else best :: lrRemoveLoop ps rest

/-- `MaxLRScoreTokenizer._remove_l_subset`. -/
def lrRemoveLSubset (ps : LRParams) (Dl Dr : Dict) (cs : List Cand8) : List Cand10 :=
  lrRemoveLoop ps (sortBy lrScoreLDescLe (lrAttachScores Dl Dr cs))

/-- Sort key of `_score`: ascending `(-x[-2], -x[-1], x[2], -x[5])`, i.e.
left score descending, right score descending, begin ascending, left length
descending.  The indices are attached for stable processing of shared
(mutable) candidate objects. -/
def lrScorePairLe (p q : Nat × Cand10) : Bool :=
  decide (q.2.scoreL < p.2.scoreL) ||
    (decide (p.2.scoreL = q.2.scoreL) &&
      (decide (q.2.scoreR < p.2.scoreR) ||
        (decide (p.2.scoreR = q.2.scoreR) &&
          (decide (p.2.p0 < q.2.p0) ||
            (decide (p.2.p0 = q.2.p0) && decide (q.2.lenL ≤ p.2.lenL))))))

/-- The overlapped-right scan of `_score`.  For every begin offset
`b ∈ [p1, p2)` and every candidate `w` (of the filtered list, which is what
`begin_to_words` indexes) with `w.p0 = b`, the read `word[-2]` yields `w`'s
left score while `w` is an untouched 10-field list, but `w`'s right score
once `w` has been kept and scored (the in-place `append` shifted the
negative index); `keptIdx` records which candidate indices have been kept
so far. -/
def lrOverlapped (ps : LRParams) (Pl : Dict) (cands : List Cand10)
    (keptIdx : List Nat) (c : Cand10) : Bool :=
  (List.range' c.p1 (c.p2 - c.p1)).any (fun b =>
    cands.enum.any (fun jw =>
      decide (jw.2.p0 = b) &&
        (let eff := if jw.1 ∈ keptIdx then jw.2.scoreR else jw.2.scoreL
         decide (ps.ensurableScoreL ≤ eff) ||
           decide (eff + dictGetD Pl jw.2.l 0 - c.scoreR > ps.ensurableScoreLRDiff))))

/-- The processing loop of `_score` over the sorted indexed candidates,
accumulating the kept candidates (in processing order). -/
def lrScoreLoop (ps : LRParams) (Pl : Dict) (cands : List Cand10) :
    List (Nat × Cand10) → List (Nat × Cand10) → List (Nat × Cand10)
  | [], kept => kept
  | ic :: rest, kept =>
    if ic.2.lenR ≠ 0 ∧ lrOverlapped ps Pl cands (kept.map (fun p => p.1)) ic.2 then
      lrScoreLoop ps Pl cands rest kept
    else
      lrScoreLoop ps Pl cands rest (kept ++ [ic])

/-- The total score appended by `_score`:
`(score_l * 2 if not r else score_l + score_r) + Pl.get(l, 0) + Pr.get(r, 0)`. -/
def lrTotalScore (Pl Pr : Dict) (c : Cand10) : ℚ :=
  (if c.r = [] then c.scoreL * 2 else c.scoreL + c.scoreR) +
    dictGetD Pl c.l 0 + dictGetD Pr c.r 0

/-- `MaxLRScoreTokenizer._score`. -/
def lrScore (ps : LRParams) (Pl Pr : Dict) (cands : List Cand10) : List Cand11 :=
  let sortedIdx := sortBy lrScorePairLe cands.enum
  (lrScoreLoop ps Pl cands sortedIdx []).map (fun ic =>
    { toCand10 := ic.2, total := lrTotalScore Pl Pr ic.2 })

/-- The overlap-removal test of `_find_best`: `b < c[4] and e > c[2]` for
the picked span `[best.p0, best.p2)`. -/
def lrOverlapsBest (best c : Cand11) : Bool :=
  decide (best.p0 < c.p2) && decide (best.p2 > c.p0)

/-- The greedy pick loop of `_find_best` (fuelled like `msFindLoop`, without
an iteration cap). -/
def lrFindBestLoop : Nat → List Cand11 → List Cand11
  | 0, _ => []
  | _ + 1, [] => []
  | fuel + 1, c :: rest =>
    c :: lrFindBestLoop fuel (rest.filter (fun x => ! lrOverlapsBest c x))

/-- `MaxLRScoreTokenizer._find_best`: sort by total descending, greedily
pick non-overlapping candidates, return them sorted by begin offset. -/
def lrFindBest (scores : List Cand11) : List Cand11 :=
  let sorted := sortBy (fun x y => decide (y.total ≤ x.total)) scores
  sortBy (fun x y => decide (x.p0 ≤ y.p0)) (lrFindBestLoop sorted.length sorted)

/-- `MaxLRScoreTokenizer._base_tokenizing_subword`: run the base
`MaxScoreTokenizer(scores=Dr)` (default `max_length = 10`,
`unknown_score = 0`) over the subword and wrap each produced surface word
as an R-only candidate (if it is a key of `Dr`) or an L-only candidate.
The local cursor `b_` of the source is initialized to 0 and never
advanced, which the embedding reproduces. -/
def lrBaseTokenizingSubword (Dr : Dict) (t : Word) (b : Nat) :
    Option (List Cand10) := do
  let words ← msTokenizeFlat Dr 10 0 t
  pure (words.map (fun w =>
    let nn := w.length
    if dictHas Dr w then
      { l := [], r := w, p0 := b, p1 := b, p2 := b + nn, lenL := 0, lenR := nn,
        lenLR := nn, scoreL := 0, scoreR := dictGetD Dr w 0 }
    else
      { l := w, r := [], p0 := b, p1 := b + nn, p2 := b + nn, lenL := nn,
        lenR := 0, lenLR := nn, scoreL := 0, scoreR := 0 }))

/-- The sorted post list of `_postprocessing` mixes the 11-field selected
candidates with the 10-field candidates synthesized by
`_base_tokenizing_subword`. -/
inductive PCand where
  | ten (c : Cand10)
  | eleven (c : Cand11)
deriving DecidableEq

def PCand.p0 : PCand → Nat
  | .ten c => c.p0
  | .eleven c => c.p0

def PCand.lpart : PCand → Word
  | .ten c => c.l
  | .eleven c => c.l

def PCand.rpart : PCand → Word
  | .ten c => c.r
  | .eleven c => c.r

/-- `MaxLRScoreTokenizer._add_inter_subwords`: for every gap between
consecutive selected candidates (`base[4] ≠ next[2]`), tokenize the gap
substring with the base tokenizer. -/
def lrAddInterSubwords (Dr : Dict) (t : Word) (words : List Cand11) :
    Option (List Cand10) :=
  ((words.zip words.tail).mapM (fun p =>
    if p.1.p2 = p.2.p0 then pure []
    else lrBaseTokenizingSubword Dr (pySlice t p.1.p2 p.2.p0) p.1.p2)).map
      List.flatten

/-- `MaxLRScoreTokenizer._postprocessing` (adds first / last / inter
subwords — note `_add_last_subword` starts from `words[-1][3]`, the left
end — and sorts everything by begin offset). -/
def lrPostprocessing (Dr : Dict) (t : Word) (words : List Cand11) :
    Option (List PCand) := do
  let n := t.length
  let addsA ←
    match words.head? with
    | some w0 =>
      if 0 < w0.p0 then lrBaseTokenizingSubword Dr (pySlice t 0 w0.p0) 0
      else pure []
    | none => pure []
  let addsB ←
    match words.getLast? with
    | some wl =>
      if wl.p1 < n then lrBaseTokenizingSubword Dr (t.drop wl.p1) wl.p1
      else pure []
    | none => pure []
  let addsC ← lrAddInterSubwords Dr t words
  let post := words.map PCand.eleven ++ (addsA ++ addsB ++ addsC).map PCand.ten
  pure (sortBy (fun x y => decide (x.p0 ≤ y.p0)) post)

/-- `MaxLRScoreTokenizer._tokenize(t)` up to the `debug` conversion. -/
def lrTokenizeChunk (ps : LRParams) (Dl Dr Pl Pr : Dict) (lmax rmax : Nat)
    (t : Word) : Option (List PCand) :=
  let cands := lrCands Dl Dr lmax rmax t
  let cands2 := lrRemoveLSubset ps Dl Dr cands
  let scores := lrScore ps Pl Pr cands2
  let best := lrFindBest scores
  if best ≠ [] then lrPostprocessing Dr t best
  else (lrBaseTokenizingSubword Dr t 0).map (fun ws => ws.map PCand.ten)

inductive LRTag where
  | L
  | R
deriving DecidableEq

/-- The `debug=False` conversion of `_tokenize`:
`[(p[0], 'L'), (p[1], 'R')]` per candidate, dropping empty words. -/
def lrSurface (post : List PCand) : List (Word × LRTag) :=
  (post.flatMap (fun p => [(p.lpart, LRTag.L), (p.rpart, LRTag.R)])).filter
    (fun w => w.1 ≠ [])

/-- The possible result shapes of `MaxLRScoreTokenizer.tokenize`, depending
on the `debug` and `flatten` flags. -/
inductive TokOut where
  | dbgNested (x : List (List PCand))
  | dbgFlat (x : List PCand)
  | surfNested (x : List (List (Word × LRTag)))
  | surfFlat (x : List (Word × LRTag))
deriving DecidableEq

/-- `MaxLRScoreTokenizer.tokenize(sent, debug, flatten)`. -/
def lrTokenize (ps : LRParams) (Dl Dr Pl Pr : Dict) (lmax rmax : Nat)
    (sent : Word) (debug flatten : Bool) : Option TokOut := do
  let chunks := (splitWs sent).filter (fun t => t ≠ [])
  let posts ← chunks.mapM (lrTokenizeChunk ps Dl Dr Pl Pr lmax rmax)
  if debug then
    if flatten then pure (TokOut.dbgFlat posts.flatten)
    else pure (TokOut.dbgNested posts)
  else
    let surf := posts.map lrSurface
    if flatten then pure (TokOut.surfFlat surf.flatten)
    else pure (TokOut.surfNested surf)

/-- `MaxLRScoreTokenizer.__call__(sent)`: the call operator forwards to
`tokenize` with its own defaults `debug=True, flatten=True`. -/
def lrCall (ps : LRParams) (Dl Dr Pl Pr : Dict) (lmax rmax : Nat)
    (sent : Word) : Option TokOut :=
  lrTokenize ps Dl Dr Pl Pr lmax rmax sent true true

/-- One step of the preference-word insertion loop of
`MaxLRScoreTokenizer.__init__`: `if not (l in D): D[l] = 1.0`. -/
def lrAddPrefStep (d : Dict) (k : Word) : Dict :=
  if dictHas d k then d else d ++ [(k, 1)]

/-- The preference-word insertion loop of `MaxLRScoreTokenizer.__init__`:
`for l in P: if not (l in D): D[l] = 1.0`. -/
def lrAddPref (D P : Dict) : Dict :=
  (dictKeys P).foldl lrAddPrefStep D

/-- The dictionary state assembled by `MaxLRScoreTokenizer.__init__` (with
no `lrgraph` and no `tokenizer_builder`, so `self.Dl` and `self.Dr` start
as the given dictionaries): insert the preference words, then compute
`lmax` / `rmax` over the updated dictionaries. -/
structure LRInitResult where
  dl : Dict
  dr : Dict
  pl : Dict
  pr : Dict
  lmax : Nat
  rmax : Nat

def lrInit (Dl Dr Pl Pr : Dict) : LRInitResult :=
  let Dl' := lrAddPref Dl Pl
  let Dr' := lrAddPref Dr Pr
  ⟨Dl', Dr', Pl, Pr, dictMaxKeyLen Dl', dictMaxKeyLen Dr'⟩

/-! Specification-side definitions (written from the claims, to be compared
with the embedded code). -/

/-- The greedy split claimed for an empty dictionary: chunks of exactly
`max_length` characters from the start, followed by the remainder. -/
def greedyChunkTok (s : Word) (u : ℚ) (b len : Nat) : Token :=
  { word := pySlice s b (b + len), b := b, e := b + len, score := u, length := len }

def greedySplit (s : Word) (m : Nat) (u : ℚ) : List Token :=
  let n := s.length
  (List.range (n / m)).map (fun k => greedyChunkTok s u (k * m) m) ++
    (if n % m = 0 then [] else [greedyChunkTok s u (n / m * m) (n % m)])

/-- The token `_add_last_subtoken` synthesizes for a length-1 uncovered
tail (the empty-dictionary case, where the score lookup defaults). -/
def tailTok (s : Word) (u : ℚ) : Token :=
  { word := s.drop (s.length - 1), b := s.length - 1, e := s.length,
    score := u, length := (s.drop (s.length - 1)).length }

/-- Closed form of the tokens selected by the greedy loop on the
empty-dictionary pool over the still-uncovered suffix `[m, n)`:
`(n-m)/M` full chunks, plus the remainder as a final pick when it has
length ≥ 2 (length-1 remainders are left for gap filling). -/
def msPicks (s : Word) (M : Nat) (u : ℚ) (m : Nat) : List Token :=
  let n := s.length
  let q := (n - m) / M
  (List.range q).map (fun k => greedyChunkTok s u (m + k * M) M) ++
    (if 2 ≤ (n - m) % M then [greedyChunkTok s u (m + q * M) ((n - m) % M)] else [])

/-- The suppression condition exactly as claim C3 words it: `c` is excluded
only if it starts after `best` and ends before it, and the ratio guard
compares `c`'s left score (not `best`'s) against `ensurable_score_l * 0.5`. -/
def c3ClaimSuppresses (ps : LRParams) (best c : Cand10) : Bool :=
  (! (decide (c.p0 > best.p0) && decide (c.p1 < best.p1))) &&
    (decide (best.scoreL - c.scoreL < ps.maxLscoreDifference) ||
      (decide (ps.ensurableScoreL * 0.5 < c.scoreL) &&
        decide ((best.scoreL + 1e-5) / (c.scoreL + 1e-5) < ps.maxLscoreDiffratio)))

/-- The suppression condition of the amended claim C3 (matching the code):
`c`'s left span must strictly contain `best`'s left span, and the ratio
guard tests `best`'s left score against `ensurable_score_l * 0.5`. -/
def c3Suppresses (ps : LRParams) (best c : Cand10) : Prop :=
  (c.p0 ≤ best.p0 ∧ best.p1 ≤ c.p1 ∧ (c.p0 < best.p0 ∨ best.p1 < c.p1)) ∧
    (best.scoreL - c.scoreL < ps.maxLscoreDifference ∨
      (ps.ensurableScoreL * 0.5 < best.scoreL ∧
        (best.scoreL + 1e-5) / (c.scoreL + 1e-5) < ps.maxLscoreDiffratio))

/-- The drop condition exactly as claim C4 words it (strict comparison with
`ensurable_score_l`, always reading the interferer's left score). -/
def c4ClaimDrop (ps : LRParams) (Pl : Dict) (cands : List Cand10)
    (c : Cand10) : Bool :=
  cands.any (fun w =>
    decide (c.p1 ≤ w.p0) && decide (w.p0 < c.p2) &&
      (decide (w.scoreL + dictGetD Pl w.l 0 - c.scoreR > ps.ensurableScoreLRDiff) ||
        decide (ps.ensurableScoreL < w.scoreL)))

/-- The drop condition of the amended claim C4 (matching the code): some
candidate `w` whose left part begins inside the right span `[p1, p2)`, with
effective score `w.scoreR` if `w` was already kept (the in-place append) and
`w.scoreL` otherwise, satisfies the non-strict `ensurable_score_l ≤`
threshold or the strict score-difference threshold. -/
def c4Drop (ps : LRParams) (Pl : Dict) (cands : List Cand10)
    (keptIdx : List Nat) (c : Cand10) : Prop :=
  ∃ j w, cands[j]? = some w ∧ c.p1 ≤ w.p0 ∧ w.p0 < c.p2 ∧
    (ps.ensurableScoreL ≤ (if j ∈ keptIdx then w.scoreR else w.scoreL) ∨
      ps.ensurableScoreLRDiff <
        (if j ∈ keptIdx then w.scoreR else w.scoreL) + dictGetD Pl w.l 0 - c.scoreR)

/-- The set of candidates enumerated by `MaxScoreTokenizer._initialize` over
the empty dictionary (every candidate scores `u`), restricted to begin
offsets ≥ `m`: spans of length 2 … `max_length` inside the word. -/
def msCandSpec (s : Word) (M : Nat) (u : ℚ) (m : Nat) (x : Token) : Prop :=
  m ≤ x.b ∧ 2 ≤ x.length ∧ x.length ≤ M ∧ x.b + x.length ≤ s.length ∧
    x.e = x.b + x.length ∧ x.word = pySlice s x.b x.e ∧ x.score = u

/-- Two tokens do not overlap in their half-open spans (the negation of the
overlap test `b' < e ∧ b < e'` of claim C8). -/
def tokNoOverlap (x y : Token) : Prop :=
  ¬ (y.b < x.e ∧ x.b < y.e)

/-- Two LR candidates do not overlap in their `[p0, p2)` spans. -/
def candNoOverlap (x y : Cand11) : Prop :=
  ¬ (y.p0 < x.p2 ∧ x.p0 < y.p2)

/-! Concrete inputs used by the counterexamples. -/

/-- A pool of 102 pairwise disjoint candidates (for the iteration cap). -/
def c5Pool : List Token :=
  (List.range 102).map (fun i =>
    { word := ['a', 'b'], b := 2 * i, e := 2 * i + 2, score := 0, length := 2 })

/-- A 205-character word: its greedy split with `max_length = 2` needs 102
picks, one more than the cap admits. -/
def c6Word : Word := List.replicate 205 'a'

/-- Dictionary for the C3 counterexample. -/
def c3Dl : Dict := [(['b', 'c'], 1), (['a', 'b'], 9/10)]

/-- The two candidates the C3 pipeline produces on `"abc"`. -/
def c3BestCand : Cand10 :=
  { l := ['b', 'c'], r := [], p0 := 1, p1 := 3, p2 := 3, lenL := 2, lenR := 0,
    lenLR := 2, scoreL := 1, scoreR := 0 }

def c3OtherCand : Cand10 :=
  { l := ['a', 'b'], r := [], p0 := 0, p1 := 2, p2 := 2, lenL := 2, lenR := 0,
    lenLR := 2, scoreL := 9/10, scoreR := 0 }

/-- Dictionaries for the C4 counterexample. -/
def c4Dl : Dict := [(['a', 'b'], 6/10), (['c', 'd'], 5/10)]

def c4Dr : Dict := [(['c', 'd'], 4/10)]

/-- The candidate `(ab, cd)` of the C4 pipeline on `"abcd"`. -/
def c4AbcdCand : Cand10 :=
  { l := ['a', 'b'], r := ['c', 'd'], p0 := 0, p1 := 2, p2 := 4, lenL := 2,
    lenR := 2, lenLR := 4, scoreL := 6/10, scoreR := 4/10 }

/-- The candidate list reaching `_score` on `"abcd"` with the C4
dictionaries (`lmax = rmax = 2`, as computed by the constructor). -/
def c4Pipeline : List Cand10 :=
  lrRemoveLSubset lrDefaults c4Dl c4Dr (lrCands c4Dl c4Dr 2 2 ("abcd".toList))

/-- The standalone (`ab`, empty-right) candidate the C4 scorer keeps. -/
def c4KeptCand : Cand11 :=
  ⟨⟨⟨['a', 'b'], [], 0, 2, 2, 2, 0, 2⟩, 6/10, 0⟩, 12/10⟩

/-! Infrastructure lemmas: the stable insertion sort. -/

section Proofs

attribute [local semireducible] Rat.add Rat.sub Rat.mul Rat.inv Rat.ofScientific

theorem insOrd_perm (le : α → α → Bool) (a : α) (l : List α) :
    List.Perm (insOrd le a l) (a :: l) := by
  induction l with
  | nil => simp [insOrd]
  | cons b t ih =>
    simp only [insOrd]
    split
    · exact List.Perm.refl _
    · exact (ih.cons b).trans (List.Perm.swap a b t)

theorem sortBy_perm (le : α → α → Bool) (l : List α) : List.Perm (sortBy le l) l := by
  induction l with
  | nil => simp [sortBy]
  | cons a t ih => exact (insOrd_perm le a (sortBy le t)).trans (ih.cons a)

theorem mem_sortBy {le : α → α → Bool} {l : List α} {x : α} :
    x ∈ sortBy le l ↔ x ∈ l :=
  (sortBy_perm le l).mem_iff

theorem length_sortBy (le : α → α → Bool) (l : List α) :
    (sortBy le l).length = l.length :=
  (sortBy_perm le l).length_eq

theorem insOrd_pairwise {le : α → α → Bool}
    (total : ∀ x y, le x y = true ∨ le y x = true)
    (htrans : ∀ x y z, le x y = true → le y z = true → le x z = true)
    (a : α) {l : List α} (h : l.Pairwise (le · · = true)) :
    (insOrd le a l).Pairwise (le · · = true) := by
  induction l with
  | nil => simp [insOrd]
  | cons b t ih =>
    simp only [insOrd]
    split
    case isTrue hab =>
      refine List.Pairwise.cons ?_ h
      intro y hy
      rcases List.mem_cons.mp hy with rfl | hyt
      · exact hab
      · exact htrans _ _ _ hab (List.rel_of_pairwise_cons h hyt)
    case isFalse hab =>
      have hba : le b a = true := by
        rcases total a b with h' | h'
        · exact absurd h' hab
        · exact h'
      refine List.Pairwise.cons ?_ (ih (List.Pairwise.of_cons h))
      intro y hy
      rcases List.mem_cons.mp ((insOrd_perm le a t).mem_iff.mp hy) with rfl | hyt
      · exact hba
      · exact List.rel_of_pairwise_cons h hyt

theorem sortBy_pairwise {le : α → α → Bool}
    (total : ∀ x y, le x y = true ∨ le y x = true)
    (htrans : ∀ x y z, le x y = true → le y z = true → le x z = true)
    (l : List α) : (sortBy le l).Pairwise (le · · = true) := by
  induction l with
  | nil => simp [sortBy]
  | cons a t ih => exact insOrd_pairwise total htrans a ih

theorem sortBy_eq_self {le : α → α → Bool} {l : List α}
    (h : l.Pairwise (le · · = true)) : sortBy le l = l := by
  induction l with
  | nil => rfl
  | cons a t ih =>
    have hs : sortBy le (a :: t) = insOrd le a (sortBy le t) := rfl
    rw [hs, ih (List.Pairwise.of_cons h)]
    cases t with
    | nil => rfl
    | cons b t' =>
      have hab : le a b = true :=
        List.rel_of_pairwise_cons h (List.mem_cons_self b t')
      simp [insOrd, hab]

/-! Bridges between the boolean sort keys and their propositional form. -/

theorem msKeyLe_iff (x y : Token) :
    msKeyLe x y = true ↔
      (y.score < x.score ∨ (x.score = y.score ∧
        (y.length < x.length ∨ (x.length = y.length ∧ x.b ≤ y.b)))) := by
  simp [msKeyLe, Bool.or_eq_true, Bool.and_eq_true, decide_eq_true_eq]

theorem msKeyLe_total (x y : Token) :
    msKeyLe x y = true ∨ msKeyLe y x = true := by
  simp only [msKeyLe_iff]
  rcases lt_trichotomy x.score y.score with h | h | h
  · right; exact Or.inl h
  · rcases lt_trichotomy x.length y.length with h' | h' | h'
    · right; exact Or.inr ⟨h.symm, Or.inl h'⟩
    · rcases le_total x.b y.b with h'' | h''
      · left; exact Or.inr ⟨h, Or.inr ⟨h', h''⟩⟩
      · right; exact Or.inr ⟨h.symm, Or.inr ⟨h'.symm, h''⟩⟩
    · left; exact Or.inr ⟨h, Or.inl h'⟩
  · left; exact Or.inl h

theorem msKeyLe_trans (x y z : Token)
    (h1 : msKeyLe x y = true) (h2 : msKeyLe y z = true) :
    msKeyLe x z = true := by
  simp only [msKeyLe_iff] at h1 h2 ⊢
  rcases h1 with h1 | ⟨e1, h1⟩
  · rcases h2 with h2 | ⟨e2, _⟩
    · exact Or.inl (h2.trans h1)
    · exact Or.inl (e2 ▸ h1)
  · rcases h2 with h2 | ⟨e2, h2⟩
    · exact Or.inl (e1 ▸ h2)
    · refine Or.inr ⟨e1.trans e2, ?_⟩
      rcases h1 with h1 | ⟨f1, h1⟩
      · rcases h2 with h2 | ⟨f2, _⟩
        · exact Or.inl (h2.trans h1)
        · exact Or.inl (f2 ▸ h1)
      · rcases h2 with h2 | ⟨f2, h2⟩
        · exact Or.inl (f1 ▸ h2)
        · exact Or.inr ⟨f1.trans f2, h1.trans h2⟩

theorem tokBLe_total (x y : Token) : tokBLe x y = true ∨ tokBLe y x = true := by
  simp only [tokBLe, decide_eq_true_eq]
  omega

theorem tokBLe_trans (x y z : Token)
    (h1 : tokBLe x y = true) (h2 : tokBLe y z = true) : tokBLe x z = true := by
  simp only [tokBLe, decide_eq_true_eq] at h1 h2 ⊢
  omega

/-! Claim C5: the iteration cap of the greedy selection loop. -/

theorem msFindLoop_len :
    ∀ (fuel k : Nat) (pool : List Token), k ≤ 100 →
      (msFindLoop fuel k pool).length ≤ 101 - k := by
  intro fuel
  induction fuel with
  | zero => intro k pool h; simp [msFindLoop]
  | succ f ih =>
    intro k pool hk
    match pool with
    | [] => simp [msFindLoop]
    | t :: rest =>
      simp only [msFindLoop]
      split
      · simp; omega
      · split
        · simp; omega
        · rename_i hcap
          have hrec := ih (k + 1)
            (rest.filter (fun c => ! msOverlapsPick t c)) (by omega)
          simp only [List.length_cons]
          omega

/-- Claim C5 (amended): the greedy selection loop of `_find` performs at
most 101 iterations (the check `num_iter > 100` runs the body once more
after the counter reaches 100); each iteration moves exactly one candidate
from the pool into the result, so the bound is the length of the returned
selection.  Candidates still in the pool when the cap fires are dropped. -/
theorem c5_iteration_bound (scored : List Token) :
    (msFind scored).length ≤ 101 := by
  have h := msFindLoop_len scored.length 0 scored (by omega)
  calc (msFind scored).length
      = (msFindLoop scored.length 0 scored).length :=
        length_sortBy tokBLe (msFindLoop scored.length 0 scored)
    _ ≤ 101 - 0 := h
    _ ≤ 101 := by omega

/-- Counterexample to claim C5 as stated: on a pool of 102 pairwise
disjoint candidates the loop performs 101 iterations — one per selected
candidate — exceeding the claimed bound of 100 (and the 102nd candidate is
silently dropped). -/
theorem c5_counterexample :
    (msFind c5Pool).length = 101 ∧ ¬ (msFind c5Pool).length ≤ 100 := by
  decide

/-! Claim C2: the length ≤ 2 short-circuit raises `UnboundLocalError`. -/

/-- Claim C2 (code bug): the sentence `"ab"` consists of one chunk of
length 2, and `_recursive_tokenize` evaluates `self.scores.get(token, ...)`
with the local name `token` still unassigned, raising `UnboundLocalError`
(`none`) even though the chunk is a dictionary key; the empty sentence does
produce the empty token list. -/
theorem c2_short_word_unbound_local :
    msTokenize [(['a', 'b'], 1)] 10 0 ("ab".toList) = none ∧
    msTokenize [(['a', 'b'], 1)] 10 0 [] = some [] := by
  decide

/-! Claim C1: tiling of the output tokens over each chunk. -/

/-- Claim C1 (code bug): on `"abc def"` with an empty dictionary the second
chunk (global offsets `[4, 7)`) is returned as three tokens whose spans mix
local and global offsets: the gap fillers `_add_first_subtoken` and
`_add_last_subtoken` compare the global `result[0][1]` / `result[-1][2]`
against local bounds, fire spuriously, and emit `Token('def', 0, 4, 0, 4)`
and `Token('', 7, 3, 0, 0)`.  The concatenation of the chunk's token texts
is `"defdef"`, not `"def"`, so the tokens do not tile the chunk. -/
theorem c1_gap_filler_offset_bug :
    msTokenize [] 10 0 ("abc def".toList) =
      some [[⟨"abc".toList, 0, 3, 0, 3⟩],
            [⟨"def".toList, 0, 4, 0, 4⟩, ⟨"def".toList, 4, 7, 0, 3⟩,
             ⟨[], 7, 3, 0, 0⟩]] ∧
    ([(⟨"def".toList, 0, 4, 0, 4⟩ : Token), ⟨"def".toList, 4, 7, 0, 3⟩,
      ⟨[], 7, 3, 0, 0⟩] : List Token).flatMap Token.word ≠ "def".toList := by
  decide

/-! Claim C8: greedy selections are pairwise non-overlapping. -/

theorem msFindLoop_mem :
    ∀ (fuel k : Nat) (pool : List Token) (x : Token),
      x ∈ msFindLoop fuel k pool → x ∈ pool := by
  intro fuel
  induction fuel with
  | zero => intro k pool x h; simp [msFindLoop] at h
  | succ f ih =>
    intro k pool x h
    match pool, h with
    | t :: rest, h =>
      simp only [msFindLoop] at h
      split at h
      · simp at h; simp [h]
      · split at h
        · simp at h; simp [h]
        · rcases List.mem_cons.mp h with rfl | h'
          · exact List.mem_cons_self _ _
          · have := ih _ _ _ h'
            exact List.mem_cons_of_mem _ (List.mem_of_mem_filter this)

theorem msFindLoop_pairwise :
    ∀ (fuel k : Nat) (pool : List Token),
      (msFindLoop fuel k pool).Pairwise tokNoOverlap := by
  intro fuel
  induction fuel with
  | zero => intro k pool; simp [msFindLoop]
  | succ f ih =>
    intro k pool
    match pool with
    | [] => simp [msFindLoop]
    | t :: rest =>
      simp only [msFindLoop]
      split
      · simp
      · split
        · simp
        · refine List.Pairwise.cons ?_ (ih _ _)
          intro y hy
          have hy' := msFindLoop_mem _ _ _ _ hy
          have hf := List.of_mem_filter hy'
          simp only [Bool.not_eq_true', msOverlapsPick, Bool.or_eq_false_iff,
            Bool.and_eq_false_iff, decide_eq_false_iff_not] at hf
          simp only [tokNoOverlap]
          intro hcon
          rcases hf.1 with h1 | h1
          · exact h1 hcon.1
          · exact h1 hcon.2

theorem lrFindBestLoop_mem :
    ∀ (fuel : Nat) (pool : List Cand11) (x : Cand11),
      x ∈ lrFindBestLoop fuel pool → x ∈ pool := by
  intro fuel
  induction fuel with
  | zero => intro pool x h; simp [lrFindBestLoop] at h
  | succ f ih =>
    intro pool x h
    match pool, h with
    | c :: rest, h =>
      rcases List.mem_cons.mp h with rfl | h'
      · exact List.mem_cons_self _ _
      · have := ih _ _ h'
        exact List.mem_cons_of_mem _ (List.mem_of_mem_filter this)

theorem lrFindBestLoop_pairwise :
    ∀ (fuel : Nat) (pool : List Cand11),
      (lrFindBestLoop fuel pool).Pairwise candNoOverlap := by
  intro fuel
  induction fuel with
  | zero => intro pool; simp [lrFindBestLoop]
  | succ f ih =>
    intro pool
    match pool with
    | [] => simp [lrFindBestLoop]
    | c :: rest =>
      refine List.Pairwise.cons ?_ (ih _)
      intro y hy
      have hy' := lrFindBestLoop_mem _ _ _ hy
      have hf := List.of_mem_filter hy'
      simp only [Bool.not_eq_true', lrOverlapsBest, Bool.and_eq_false_iff,
        decide_eq_false_iff_not] at hf
      simp only [candNoOverlap]
      intro hcon
      rcases hf with h1 | h1
      · exact h1 hcon.2
      · exact h1 hcon.1

/-- Claim C8: after each greedy selection — the MaxScore pool selection
`_find` and the LR pick `_find_best` — the kept candidates are pairwise
non-overlapping in their half-open spans; each round removes exactly the
candidates passing the overlap test `b' < e ∧ b < e'` against the picked
span, which is how `msFindLoop` and `lrFindBestLoop` filter the pool. -/
theorem c8_selection_nonoverlap :
    (∀ pool : List Token, (msFind pool).Pairwise tokNoOverlap) ∧
    (∀ cs : List Cand11, (lrFindBest cs).Pairwise candNoOverlap) := by
  constructor
  · intro pool
    have hsym : Symmetric tokNoOverlap := by
      intro x y h
      simp only [tokNoOverlap] at h ⊢
      tauto
    exact ((sortBy_perm tokBLe _).pairwise_iff (fun {x y} h => hsym h)).mpr
      (msFindLoop_pairwise _ _ _)
  · intro cs
    have hsym : Symmetric candNoOverlap := by
      intro x y h
      simp only [candNoOverlap] at h ⊢
      tauto
    exact ((sortBy_perm _ _).pairwise_iff (fun {x y} h => hsym h)).mpr
      (lrFindBestLoop_pairwise _ _)

/-! Claim C3: the domination filter `_remove_l_subset`. -/

theorem lrSuppresses_iff (ps : LRParams) (best c : Cand10) :
    lrSuppresses ps best c = true ↔ c3Suppresses ps best c := by
  simp only [lrSuppresses, c3Suppresses, Bool.and_eq_true, Bool.or_eq_true,
    Bool.not_eq_true', Bool.or_eq_false_iff, Bool.not_eq_false',
    decide_eq_false_iff_not, decide_eq_true_eq, not_lt, not_le]
  constructor
  · rintro ⟨hspan, hsc⟩
    exact ⟨by omega, hsc⟩
  · rintro ⟨hspan, hsc⟩
    exact ⟨by omega, hsc⟩

/-- Claim C3 (amended): in the domination filter's pop loop, a candidate is
kept exactly when no candidate still remaining after it suppresses it; a
suppressor's left span must strictly contain the candidate's left span
(`c.p0 ≤ b`, `e ≤ c.p1`, and proper), and the guarded ratio test compares
the popped candidate's own left score `s` (not the suppressor's) against
`ensurable_score_l * 0.5`. -/
theorem c3_domination_drop_iff (ps : LRParams) (cs : List Cand10) (x : Cand10) :
    x ∈ lrRemoveLoop ps cs ↔
      ∃ pre post, cs = pre ++ x :: post ∧ ∀ c ∈ post, ¬ c3Suppresses ps x c := by
  induction cs generalizing x with
  | nil => simp [lrRemoveLoop]
  | cons a t ih =>
    simp only [lrRemoveLoop]
    split
    case isTrue hdrop =>
      rw [ih x]
      constructor
      · rintro ⟨pre, post, hdec, hall⟩
        exact ⟨a :: pre, post, by rw [hdec, List.cons_append], hall⟩
      · rintro ⟨pre, post, hdec, hall⟩
        match pre, hdec with
        | [], hdec =>
          exfalso
          obtain ⟨rfl, rfl⟩ : a = x ∧ t = post := by
            simpa using hdec
          obtain ⟨c, hc, hsc⟩ := List.any_eq_true.mp hdrop
          exact hall c hc ((lrSuppresses_iff ps a c).mp hsc)
        | a' :: pre', hdec =>
          obtain ⟨rfl, hdec'⟩ : a = a' ∧ t = pre' ++ x :: post := by
            simpa using hdec
          exact ⟨pre', post, hdec', hall⟩
    case isFalse hkeep =>
      have hkeep' : ∀ c ∈ t, ¬ c3Suppresses ps a c := by
        intro c hc
        rw [← lrSuppresses_iff]
        intro hcon
        exact hkeep (List.any_eq_true.mpr ⟨c, hc, hcon⟩)
      constructor
      · intro hx
        rcases List.mem_cons.mp hx with rfl | hx'
        · exact ⟨[], t, rfl, hkeep'⟩
        · obtain ⟨pre, post, hdec, hall⟩ := (ih x).mp hx'
          exact ⟨a :: pre, post, by rw [hdec, List.cons_append], hall⟩
      · rintro ⟨pre, post, hdec, hall⟩
        match pre, hdec with
        | [], hdec =>
          obtain ⟨rfl, rfl⟩ : a = x ∧ t = post := by
            simpa using hdec
          exact List.mem_cons_self _ _
        | a' :: pre', hdec =>
          obtain ⟨rfl, hdec'⟩ : a = a' ∧ t = pre' ++ x :: post := by
            simpa using hdec
          exact List.mem_cons_of_mem _ ((ih x).mpr ⟨pre', post, hdec', hall⟩)

/-- Counterexample to claim C3 as stated: on the word `"abc"` with
`Dl = {"bc": 1.0, "ab": 0.9}` the filter pops `("bc", [1,3))` first with
`("ab", [0,2))` still remaining.  As the claim words the span test
(`"ab"` does not start after 1 and end before 3, so it is not excluded)
and with `1.0 - 0.9 < max_lscore_difference = 0.3`, the claim predicts
that `"bc"` is dropped — but the code keeps both candidates, because
`"ab"` ends before `"bc"`'s left span ends and is therefore skipped. -/
theorem c3_counterexample :
    sortBy lrScoreLDescLe
        (lrAttachScores c3Dl [] (lrCands c3Dl [] 2 0 ("abc".toList))) =
      [c3BestCand, c3OtherCand] ∧
    lrRemoveLSubset lrDefaults c3Dl [] (lrCands c3Dl [] 2 0 ("abc".toList)) =
      [c3BestCand, c3OtherCand] ∧
    c3ClaimSuppresses lrDefaults c3BestCand c3OtherCand = true := by
  decide

/-! Claim C4: the LR scorer `_score`. -/

theorem lrOverlapped_iff (ps : LRParams) (Pl : Dict) (cands : List Cand10)
    (keptIdx : List Nat) (c : Cand10) :
    lrOverlapped ps Pl cands keptIdx c = true ↔
      c4Drop ps Pl cands keptIdx c := by
  simp only [lrOverlapped, c4Drop, List.any_eq_true, List.mem_range'_1,
    Bool.and_eq_true, Bool.or_eq_true, decide_eq_true_eq, Prod.exists,
    List.mem_enum_iff_getElem?]
  constructor
  · rintro ⟨b, ⟨hb1, hb2⟩, j, w, hjw, hp0, hcond⟩
    exact ⟨j, w, hjw, by omega, by omega, by
      rcases hcond with h | h
      · exact Or.inl h
      · exact Or.inr h⟩
  · rintro ⟨j, w, hjw, hp1, hp2, hcond⟩
    refine ⟨w.p0, ⟨hp1, by omega⟩, j, w, hjw, rfl, ?_⟩
    rcases hcond with h | h
    · exact Or.inl h
    · exact Or.inr h

/-- Claim C4 (amended): every surviving candidate receives
`total_score = (leftScore * 2 if Right empty else leftScore + rightScore)
+ preference_bonus(Left) + preference_bonus(Right)`; and in the processing
loop a candidate with non-empty Right is dropped exactly when some
candidate `w` whose Left begins at an offset in `[p1, p2)` satisfies
`ensurable_score_l ≤ v` (non-strict) or
`v + preference_bonus(w.Left) - rightScore > ensurable_score_lr_diff`,
where `v` is `w`'s Left score — unless `w` was already kept and scored, in
which case the in-place `append` makes the `word[-2]` read return `w`'s
Right score instead. -/
theorem c4_scorer_drop_iff :
    (∀ (ps : LRParams) (Pl Pr : Dict) (cands : List Cand10) (x : Cand11),
        x ∈ lrScore ps Pl Pr cands →
          x.total = (if x.r = [] then x.scoreL * 2 else x.scoreL + x.scoreR) +
            dictGetD Pl x.l 0 + dictGetD Pr x.r 0) ∧
    (∀ (ps : LRParams) (Pl : Dict) (cands : List Cand10)
        (idxs kept : List (Nat × Cand10)) (ic : Nat × Cand10),
        ic ∈ lrScoreLoop ps Pl cands idxs kept ↔
          ic ∈ kept ∨ ∃ pre post, idxs = pre ++ ic :: post ∧
            ¬ (ic.2.lenR ≠ 0 ∧ c4Drop ps Pl cands
                ((lrScoreLoop ps Pl cands pre kept).map (fun p => p.1)) ic.2)) := by
  constructor
  · intro ps Pl Pr cands x hx
    simp only [lrScore, List.mem_map] at hx
    obtain ⟨ic, _, rfl⟩ := hx
    simp [lrTotalScore]
  · intro ps Pl cands idxs
    induction idxs with
    | nil =>
      intro kept ic
      simp [lrScoreLoop]
    | cons jc rest ih =>
      intro kept ic
      simp only [lrScoreLoop]
      split
      case isTrue hdrop =>
        rw [ih kept ic]
        have hstep : ∀ pre : List (Nat × Cand10),
            lrScoreLoop ps Pl cands (jc :: pre) kept =
              lrScoreLoop ps Pl cands pre kept := by
          intro pre
          simp only [lrScoreLoop]
          rw [if_pos hdrop]
        constructor
        · rintro (hk | ⟨pre, post, hdec, hcond⟩)
          · exact Or.inl hk
          · exact Or.inr ⟨jc :: pre, post, by rw [hdec, List.cons_append],
              by rwa [hstep]⟩
        · rintro (hk | ⟨pre, post, hdec, hcond⟩)
          · exact Or.inl hk
          · match pre, hdec with
            | [], hdec =>
              exfalso
              obtain ⟨rfl, _⟩ : jc = ic ∧ rest = post := by simpa using hdec
              refine hcond ⟨hdrop.1, ?_⟩
              have := hdrop.2
              rw [lrOverlapped_iff] at this
              simpa [lrScoreLoop] using this
            | jc' :: pre', hdec =>
              obtain ⟨rfl, hdec'⟩ : jc = jc' ∧ rest = pre' ++ ic :: post := by
                simpa using hdec
              exact Or.inr ⟨pre', post, hdec', by rwa [hstep] at hcond⟩
      case isFalse hkeep =>
        rw [ih (kept ++ [jc]) ic]
        have hstep : ∀ pre : List (Nat × Cand10),
            lrScoreLoop ps Pl cands (jc :: pre) kept =
              lrScoreLoop ps Pl cands pre (kept ++ [jc]) := by
          intro pre
          simp only [lrScoreLoop]
          rw [if_neg hkeep]
        have hkeep' : ¬ (jc.2.lenR ≠ 0 ∧ c4Drop ps Pl cands
            ((lrScoreLoop ps Pl cands [] kept).map (fun p => p.1)) jc.2) := by
          simp only [lrScoreLoop]
          intro hcon
          exact hkeep ⟨hcon.1, (lrOverlapped_iff _ _ _ _ _).mpr hcon.2⟩
        constructor
        · rintro (hk | ⟨pre, post, hdec, hcond⟩)
          · rcases List.mem_append.mp hk with hk' | hk'
            · exact Or.inl hk'
            · have : ic = jc := by simpa using hk'
              subst this
              exact Or.inr ⟨[], rest, rfl, hkeep'⟩
          · exact Or.inr ⟨jc :: pre, post, by rw [hdec, List.cons_append],
              by rwa [hstep]⟩
        · rintro (hk | ⟨pre, post, hdec, hcond⟩)
          · exact Or.inl (List.mem_append_left _ hk)
          · match pre, hdec with
            | [], hdec =>
              obtain ⟨rfl, _⟩ : jc = ic ∧ rest = post := by simpa using hdec
              exact Or.inl (List.mem_append_right _ (List.mem_singleton.mpr rfl))
            | jc' :: pre', hdec =>
              obtain ⟨rfl, hdec'⟩ : jc = jc' ∧ rest = pre' ++ ic :: post := by
                simpa using hdec
              exact Or.inr ⟨pre', post, hdec', by rwa [hstep] at hcond⟩

/-- Counterexample to claim C4 as stated: on the word `"abcd"` with
`Dl = {"ab": 0.6, "cd": 0.5}`, `Dr = {"cd": 0.4}` and default thresholds,
the candidate `("ab", "cd")` is dropped by the scorer because the
interfering Left `"cd"` has score exactly `ensurable_score_l = 0.5` and
the code tests `ensurable_score_l <= word[-2]` (non-strict).  The claim's
strict "exceeds ensurable_score_l" predicate is false for this input
(and its difference test `0.5 - 0.4 > 0.3` fails too), so the claim
predicts the candidate survives. -/
theorem c4_counterexample :
    c4AbcdCand ∈ c4Pipeline ∧
    lrScore lrDefaults [] [] c4Pipeline =
      [⟨⟨⟨['a', 'b'], [], 0, 2, 2, 2, 0, 2⟩, 6/10, 0⟩, 12/10⟩,
       ⟨⟨⟨['c', 'd'], [], 2, 4, 4, 2, 0, 2⟩, 5/10, 0⟩, 1⟩] ∧
    c4ClaimDrop lrDefaults [] c4Pipeline c4AbcdCand = false := by
  decide

/-! Claim C7: the LR candidate builder. -/

theorem pySlice_length (s : Word) (b e : Nat) :
    (pySlice s b e).length = min (e - b) (s.length - b) := by
  simp [pySlice]

theorem mem_lrInitL (Dl : Dict) (lmax : Nat) (t : Word)
    (c : Word × Nat × Nat × Nat) :
    c ∈ lrInitL Dl lmax t ↔
      ∃ b e, b < e ∧ e ≤ t.length ∧ e ≤ b + lmax ∧
        dictHas Dl (pySlice t b e) = true ∧ c = (pySlice t b e, b, e, e - b) := by
  simp only [lrInitL, List.mem_flatMap, List.mem_filterMap, List.mem_range,
    List.mem_range'_1]
  constructor
  · rintro ⟨b, hb, e, he, hc⟩
    rw [Option.ite_none_right_eq_some] at hc
    obtain ⟨hd, hc⟩ := hc
    have hc' := Option.some.inj hc
    exact ⟨b, e, by omega, by omega, by omega, hd, hc'.symm⟩
  · rintro ⟨b, e, h1, h2, h3, hd, rfl⟩
    refine ⟨b, by omega, e, ⟨by omega, by omega⟩, ?_⟩
    rw [Option.ite_none_right_eq_some]
    exact ⟨hd, rfl⟩

/-- Claim C7: the LR candidate builder outputs exactly the pairs
`(Left, Right)` with `Left = word[b:e]` a key of `Dl`, `e - b ≤ lmax`,
`Right = word[e:e+len_r]` empty or a key of `Dr` with `len_r ≤ rmax`
(inside the word), excluding `len_l = 1 ∧ len_r = 0`, and the output is
sorted ascending by the end offset `p2 = e + len_r`. -/
theorem c7_candidate_builder (Dl Dr : Dict) (lmax rmax : Nat) (t : Word) :
    (∀ c : Cand8, c ∈ lrCands Dl Dr lmax rmax t ↔
      ∃ b e lenR, b < e ∧ e ≤ t.length ∧ e - b ≤ lmax ∧
        dictHas Dl (pySlice t b e) = true ∧
        lenR ≤ rmax ∧ e + lenR ≤ t.length ∧
        (lenR = 0 ∨ dictHas Dr (pySlice t e (e + lenR)) = true) ∧
        ¬ (e - b = 1 ∧ lenR = 0) ∧
        c = ⟨pySlice t b e, pySlice t e (e + lenR), b, e, e + lenR, e - b,
             lenR, (e - b) + lenR⟩) ∧
    (lrCands Dl Dr lmax rmax t).Pairwise (fun x y => x.p2 ≤ y.p2) := by
  constructor
  · intro c
    unfold lrCands lrInitLR
    rw [mem_sortBy]
    simp only [List.mem_flatMap, List.mem_range, mem_lrInitL, List.mem_filterMap]
    constructor
    · rintro ⟨lc, ⟨b, e, h1, h2, h3, hd, rfl⟩, lenR, hr, hc⟩
      dsimp only at hr hc
      rw [Option.ite_none_left_eq_some, Option.ite_none_left_eq_some] at hc
      obtain ⟨hdeg, hkeep, hc⟩ := hc
      have hc' := Option.some.inj hc
      refine ⟨b, e, lenR, h1, h2, by omega, hd, by omega, by omega, ?_, hdeg,
        hc'.symm⟩
      by_cases h0 : lenR = 0
      · exact Or.inl h0
      · refine Or.inr ?_
        rcases not_and_or.mp hkeep with h | h
        · exfalso
          apply h0
          have hlen := pySlice_length t e (e + lenR)
          have hnil : pySlice t e (e + lenR) = [] := by
            by_contra hne
            exact h hne
          rw [hnil] at hlen
          simp only [List.length_nil] at hlen
          omega
        · simpa using h
    · rintro ⟨b, e, lenR, h1, h2, h3, hd, h4, h5, hkeep, hdeg, rfl⟩
      refine ⟨(pySlice t b e, b, e, e - b), ⟨b, e, h1, h2, by omega, hd, rfl⟩,
        lenR, ?_, ?_⟩
      · dsimp only
        omega
      · dsimp only
        rw [Option.ite_none_left_eq_some, Option.ite_none_left_eq_some]
        refine ⟨hdeg, ?_, rfl⟩
        rw [not_and_or]
        rcases hkeep with h0 | hdr
        · left
          have hnil : pySlice t e (e + lenR) = [] := by
            subst h0
            simp [pySlice]
          simp [hnil]
        · right
          simpa using hdr
  · unfold lrCands lrInitLR
    refine List.Pairwise.imp ?_ (sortBy_pairwise
      (fun x y => by simp only [decide_eq_true_eq]; omega)
      (fun x y z h1 h2 => by
        simp only [decide_eq_true_eq] at h1 h2 ⊢; omega) _)
    intro x y h
    simpa using h

/-! Claim C9: preference words are inserted into the dictionaries. -/

theorem dictFind_append (d ext : Dict) (k : Word) :
    dictFind (d ++ ext) k =
      if dictHas d k then dictFind d k else dictFind ext k := by
  induction d with
  | nil => simp [dictFind, dictHas]
  | cons p d' ih =>
    by_cases hp : p.1 = k
    · simp [dictFind, dictHas, List.find?_cons, hp]
    · have hp' : (decide (p.1 = k)) = false := by simpa using hp
      simp only [List.cons_append, dictFind, dictHas, List.find?_cons, hp',
        cond_false] at *
      exact ih

theorem dictHas_iff_mem_keys (d : Dict) (k : Word) :
    dictHas d k = true ↔ k ∈ dictKeys d := by
  constructor
  · intro h
    obtain ⟨v, hv⟩ := Option.isSome_iff_exists.mp h
    simp only [dictFind, Option.map_eq_some'] at hv
    obtain ⟨p, hp, rfl⟩ := hv
    have hpk : p.1 = k := by simpa using List.find?_some hp
    exact hpk ▸ List.mem_map.mpr ⟨p, List.mem_of_find?_eq_some hp, rfl⟩
  · intro h
    obtain ⟨p, hp, rfl⟩ := List.mem_map.mp h
    have hs : (d.find? (fun q => decide (q.1 = p.1))).isSome := by
      rw [List.find?_isSome]
      exact ⟨p, hp, by simp⟩
    simpa [dictHas, dictFind] using hs

theorem le_foldl_max : ∀ (l : List Nat) (a x : Nat), x ∈ l ∨ x ≤ a →
    x ≤ l.foldl max a := by
  intro l
  induction l with
  | nil =>
    intro a x h
    simpa using h
  | cons b t ih =>
    intro a x h
    simp only [List.foldl_cons]
    refine ih (max a b) x ?_
    rcases h with h | h
    · rcases List.mem_cons.mp h with rfl | h'
      · exact Or.inr (le_max_right a x)
      · exact Or.inl h'
    · exact Or.inr (le_trans h (le_max_left a b))

theorem lrAddPref_preserve :
    ∀ (ks : List Word) (d : Dict) (k : Word), dictHas d k = true →
      dictHas (ks.foldl lrAddPrefStep d) k = true ∧
      dictFind (ks.foldl lrAddPrefStep d) k = dictFind d k := by
  intro ks
  induction ks with
  | nil => intro d k h; exact ⟨h, rfl⟩
  | cons k' ks' ih =>
    intro d k h
    simp only [List.foldl_cons]
    have hstep : dictHas (lrAddPrefStep d k') k = true ∧
        dictFind (lrAddPrefStep d k') k = dictFind d k := by
      unfold lrAddPrefStep
      split
      · exact ⟨h, rfl⟩
      · have hfind : dictFind (d ++ [(k', 1)]) k = dictFind d k := by
          rw [dictFind_append, if_pos h]
        refine ⟨?_, hfind⟩
        simp only [dictHas] at h ⊢
        rw [hfind]
        exact h
    obtain ⟨h1, h2⟩ := hstep
    obtain ⟨h3, h4⟩ := ih _ k h1
    exact ⟨h3, h4.trans h2⟩

theorem lrAddPref_mem :
    ∀ (ks : List Word) (d : Dict) (k : Word), k ∈ ks →
      dictHas (ks.foldl lrAddPrefStep d) k = true ∧
      dictFind (ks.foldl lrAddPrefStep d) k =
        (if dictHas d k then dictFind d k else some 1) := by
  intro ks
  induction ks with
  | nil => intro d k h; simp at h
  | cons k' ks' ih =>
    intro d k hk
    simp only [List.foldl_cons]
    by_cases hkk : k = k'
    · subst hkk
      by_cases hd : dictHas d k
      · have hstep : lrAddPrefStep d k = d := by
          unfold lrAddPrefStep
          rw [if_pos hd]
        rw [hstep, if_pos hd]
        exact lrAddPref_preserve ks' d k hd
      · have hd' : dictHas d k = false := by simpa using hd
        have hstep : lrAddPrefStep d k = d ++ [(k, 1)] := by
          unfold lrAddPrefStep
          rw [if_neg (by simp [hd'])]
        have hfind : dictFind (d ++ [(k, 1)]) k = some 1 := by
          rw [dictFind_append, if_neg (by simp [hd'])]
          simp [dictFind]
        have hhas : dictHas (d ++ [(k, 1)]) k = true := by
          simp only [dictHas]
          rw [hfind]
          rfl
        rw [hstep, if_neg (by simp [hd'])]
        obtain ⟨h3, h4⟩ := lrAddPref_preserve ks' (d ++ [(k, 1)]) k hhas
        exact ⟨h3, h4.trans hfind⟩
    · have hk2 : k ∈ ks' := by
        rcases List.mem_cons.mp hk with h | h
        · exact absurd h hkk
        · exact h
      have hsame : dictHas (lrAddPrefStep d k') k = dictHas d k ∧
          dictFind (lrAddPrefStep d k') k = dictFind d k := by
        unfold lrAddPrefStep
        split
        · exact ⟨rfl, rfl⟩
        · have hne : dictFind [(k', 1)] k = none := by
            have hd' : (decide (k' = k)) = false := by
              simp only [decide_eq_false_iff_not]
              intro hcon
              exact hkk hcon.symm
            simp [dictFind, List.find?_cons, hd']
          have hfind : dictFind (d ++ [(k', 1)]) k =
              if dictHas d k then dictFind d k else none := by
            rw [dictFind_append, hne]
          constructor
          · simp only [dictHas]
            rw [hfind]
            by_cases hd : dictHas d k
            · rw [if_pos hd]
            · rw [if_neg hd]
              have hfalse : (dictFind d k).isSome = false := by
                simpa [dictHas] using hd
              rw [hfalse]
              rfl
          · rw [hfind]
            by_cases hd : dictHas d k
            · rw [if_pos hd]
            · rw [if_neg hd]
              have hnone : dictFind d k = none :=
                Option.not_isSome_iff_eq_none.mp (by simpa [dictHas] using hd)
              exact hnone.symm
      obtain ⟨hh, hf⟩ := hsame
      obtain ⟨h3, h4⟩ := ih (lrAddPrefStep d k') k hk2
      refine ⟨h3, ?_⟩
      rw [h4, hh, hf]

/-- Claim C9: after construction, every preference word is a key of its
dictionary (inserted with score 1.0 when absent, with existing entries kept
unchanged), and `lmax` / `rmax` are computed over the updated dictionaries,
so they bound the length of every preference word. -/
theorem c9_preference_words (Dl Dr Pl Pr : Dict) (k : Word) :
    (k ∈ dictKeys Pl →
      dictHas (lrInit Dl Dr Pl Pr).dl k = true ∧
      (dictHas Dl k = false → dictFind (lrInit Dl Dr Pl Pr).dl k = some 1) ∧
      (dictHas Dl k = true → dictFind (lrInit Dl Dr Pl Pr).dl k = dictFind Dl k) ∧
      k.length ≤ (lrInit Dl Dr Pl Pr).lmax) ∧
    (k ∈ dictKeys Pr →
      dictHas (lrInit Dl Dr Pl Pr).dr k = true ∧
      (dictHas Dr k = false → dictFind (lrInit Dl Dr Pl Pr).dr k = some 1) ∧
      (dictHas Dr k = true → dictFind (lrInit Dl Dr Pl Pr).dr k = dictFind Dr k) ∧
      k.length ≤ (lrInit Dl Dr Pl Pr).rmax) := by
  have main : ∀ (D P : Dict), k ∈ dictKeys P →
      dictHas (lrAddPref D P) k = true ∧
      (dictHas D k = false → dictFind (lrAddPref D P) k = some 1) ∧
      (dictHas D k = true → dictFind (lrAddPref D P) k = dictFind D k) ∧
      k.length ≤ dictMaxKeyLen (lrAddPref D P) := by
    intro D P hk
    unfold lrAddPref
    obtain ⟨h1, h2⟩ := lrAddPref_mem (dictKeys P) D k hk
    refine ⟨h1, ?_, ?_, ?_⟩
    · intro hD
      rw [h2, if_neg (by simp [hD])]
    · intro hD
      rw [h2, if_pos hD]
    · have hmem : k ∈ dictKeys (lrAddPref D P) :=
        (dictHas_iff_mem_keys _ _).mp h1
      have : k.length ∈ (lrAddPref D P).map (fun p => p.1.length) := by
        simp only [dictKeys, List.mem_map] at hmem
        obtain ⟨p, hp, rfl⟩ := hmem
        exact List.mem_map.mpr ⟨p, hp, rfl⟩
      exact le_foldl_max _ 0 _ (Or.inl this)
  exact ⟨main Dl Pl, main Dr Pr⟩

/-! Claim C10: the two public entry points. -/

/-- Claim C10: `__call__` forwards to `tokenize` with `debug=True,
flatten=True` (definitional), while `tokenize`'s own default is
`debug=False`; on the sentence `"ab"` with `Dl = {"ab": 1.0}` the two
defaults produce different output shapes (raw candidate field-lists versus
`(word, 'L'/'R')` pairs). -/
theorem c10_call_defaults :
    (∀ (ps : LRParams) (Dl Dr Pl Pr : Dict) (lmax rmax : Nat) (sent : Word),
        lrCall ps Dl Dr Pl Pr lmax rmax sent =
          lrTokenize ps Dl Dr Pl Pr lmax rmax sent true true) ∧
    lrTokenize lrDefaults [(['a', 'b'], 1)] [] [] [] 2 0 ("ab".toList) true true ≠
      lrTokenize lrDefaults [(['a', 'b'], 1)] [] [] [] 2 0 ("ab".toList) false true := by
  exact ⟨fun ps Dl Dr Pl Pr lmax rmax sent => rfl, by decide⟩

/-! Claim C6: empty dictionary gives the longest-first greedy split. -/

attribute [ext] Token

theorem dictGetD_nil (k : Word) (v : ℚ) : dictGetD [] k v = v := rfl

theorem mem_msInitCands_nil (s : Word) (M : Nat) (u : ℚ) (x : Token) :
    x ∈ msInitCands [] M u s 0 ↔ msCandSpec s M u 0 x := by
  simp only [msInitCands, List.mem_flatMap, List.mem_map, List.mem_filter,
    List.mem_range, List.mem_range'_1, decide_eq_true_eq]
  constructor
  · rintro ⟨b, hb, r, ⟨⟨hr2, hrlt⟩, hrn⟩, rfl⟩
    simp only [msCandSpec]
    refine ⟨by omega, by omega, by omega, by omega, by omega, by simp, rfl⟩
  · simp only [msCandSpec]
    rintro ⟨hmb, h2, hMx, hbn, he, hw, hs⟩
    refine ⟨x.b, by omega, x.length, ⟨⟨h2, by omega⟩, by omega⟩, ?_⟩
    cases x with
    | mk w b e sc len =>
      simp only at h2 hMx hbn he hw hs
      subst he
      subst hw
      subst hs
      simp [Token.mk.injEq, dictGetD, dictFind]

theorem msCandSpec_empty (s : Word) (M : Nat) (u : ℚ) (m : Nat) (x : Token)
    (h : s.length - m < 2) : ¬ msCandSpec s M u m x := by
  rintro ⟨h1, h2, h3, h4, _⟩
  omega

theorem cstar_spec (s : Word) (M : Nat) (u : ℚ) (m : Nat)
    (h2 : 2 ≤ s.length - m) (hM : 2 ≤ M) :
    msCandSpec s M u m (greedyChunkTok s u m (min M (s.length - m))) := by
  simp only [msCandSpec, greedyChunkTok]
  refine ⟨le_refl m, by omega, by omega, by omega, trivial, trivial, trivial⟩

theorem cstar_min (s : Word) (M : Nat) (u : ℚ) (m : Nat) (x : Token)
    (hx : msCandSpec s M u m x) :
    msKeyLe (greedyChunkTok s u m (min M (s.length - m))) x = true := by
  obtain ⟨h1, h2, h3, h4, _, _, hs⟩ := hx
  rw [msKeyLe_iff]
  simp only [greedyChunkTok]
  refine Or.inr ⟨hs.symm, ?_⟩
  have hle : x.length ≤ min M (s.length - m) := by omega
  rcases eq_or_lt_of_le hle with heq | hlt
  · exact Or.inr ⟨heq.symm, h1⟩
  · exact Or.inl hlt

theorem msCand_keyLe_antisym (s : Word) (M : Nat) (u : ℚ) (m : Nat)
    (x y : Token) (hx : msCandSpec s M u m x) (hy : msCandSpec s M u m y)
    (hxy : msKeyLe x y = true) (hyx : msKeyLe y x = true) : x = y := by
  obtain ⟨_, _, _, _, hex, hwx, hsx⟩ := hx
  obtain ⟨_, _, _, _, hey, hwy, hsy⟩ := hy
  rw [msKeyLe_iff] at hxy hyx
  have hs : x.score = y.score := by rw [hsx, hsy]
  rcases hxy with h | ⟨_, hxy⟩
  · exact absurd hs (by intro hc; rw [hc] at h; exact lt_irrefl _ h)
  rcases hyx with h | ⟨_, hyx⟩
  · exact absurd hs.symm (by intro hc; rw [hc] at h; exact lt_irrefl _ h)
  have hlen : x.length = y.length := by omega
  have hb : x.b = y.b := by omega
  have he : x.e = y.e := by omega
  ext
  · rw [hwx, hwy, hb, he]
  · exact hb
  · exact he
  · exact hs
  · exact hlen

theorem pool_shape (s : Word) (M : Nat) (u : ℚ) (m : Nat)
    (pool : List Token)
    (hmem : ∀ x, x ∈ pool ↔ msCandSpec s M u m x)
    (hpw : pool.Pairwise (msKeyLe · · = true))
    (h2 : 2 ≤ s.length - m) (hM : 2 ≤ M) :
    ∃ t', pool = greedyChunkTok s u m (min M (s.length - m)) :: t' := by
  have hcin : greedyChunkTok s u m (min M (s.length - m)) ∈ pool :=
    (hmem _).mpr (cstar_spec s M u m h2 hM)
  match pool, hcin with
  | h :: t', hcin =>
    have hspec_h : msCandSpec s M u m h := (hmem h).mp (List.mem_cons_self h t')
    have hle1 : msKeyLe (greedyChunkTok s u m (min M (s.length - m))) h = true :=
      cstar_min s M u m h hspec_h
    have hle2 : msKeyLe h (greedyChunkTok s u m (min M (s.length - m))) = true := by
      rcases List.mem_cons.mp hcin with heq | hmem'
      · rw [heq]
        rcases msKeyLe_total h h with h' | h'
        · exact h'
        · exact h'
      · exact List.rel_of_pairwise_cons hpw hmem'
    have : h = greedyChunkTok s u m (min M (s.length - m)) :=
      msCand_keyLe_antisym s M u m h _ hspec_h (cstar_spec s M u m h2 hM)
        hle2 hle1
    exact ⟨t', by rw [this]⟩

theorem msPicks_nil (s : Word) (M : Nat) (u : ℚ) (m : Nat)
    (h : s.length - m < 2) (hM : 2 ≤ M) : msPicks s M u m = [] := by
  have hq : (s.length - m) / M = 0 := Nat.div_eq_of_lt (by omega)
  have hmod : (s.length - m) % M = s.length - m := Nat.mod_eq_of_lt (by omega)
  simp [msPicks, hq, hmod]
  omega

theorem msPicks_cons (s : Word) (M : Nat) (u : ℚ) (m : Nat)
    (h2 : 2 ≤ s.length - m) (hM : 2 ≤ M) :
    msPicks s M u m =
      greedyChunkTok s u m (min M (s.length - m)) ::
        msPicks s M u (m + min M (s.length - m)) := by
  rcases lt_or_ge (s.length - m) M with hlt | hge
  · have hmin : min M (s.length - m) = s.length - m := by omega
    have hq : (s.length - m) / M = 0 := Nat.div_eq_of_lt hlt
    have hmod : (s.length - m) % M = s.length - m := Nat.mod_eq_of_lt hlt
    have hm2 : m + (s.length - m) = s.length := by omega
    have hnil : msPicks s M u s.length = [] := by
      simp [msPicks, Nat.sub_self]
    rw [hmin, hm2, hnil]
    simp only [msPicks, hq, hmod, List.range_zero, List.map_nil,
      List.nil_append]
    rw [if_pos h2]
    simp
  · have hmin : min M (s.length - m) = M := by omega
    have hM0 : 0 < M := by omega
    have hq : (s.length - m) / M = ((s.length - m) - M) / M + 1 :=
      Nat.div_eq_sub_div hM0 hge
    have hmod : (s.length - m) % M = ((s.length - m) - M) % M :=
      Nat.mod_eq_sub_mod hge
    have hsub : s.length - (m + M) = (s.length - m) - M := by omega
    rw [hmin]
    simp only [msPicks, hq, hmod, hsub]
    rw [List.range_succ_eq_map]
    simp only [List.map_cons, List.map_map]
    rw [List.cons_append]
    congr 1
    · simp
    congr 1
    · apply List.map_congr_left
      intro k _
      simp only [Function.comp_apply]
      have harith : m + (k + 1) * M = m + M + k * M := by ring
      rw [harith]
    · split
      · have harith : m + (((s.length - m) - M) / M + 1) * M =
            m + M + ((s.length - m) - M) / M * M := by ring
        rw [harith]
      · rfl

theorem msPicks_length (s : Word) (M : Nat) (u : ℚ) (m : Nat) :
    (msPicks s M u m).length =
      (s.length - m) / M + (if 2 ≤ (s.length - m) % M then 1 else 0) := by
  simp only [msPicks, List.length_append, List.length_map, List.length_range]
  split <;> simp

theorem msCandSpec_mono (s : Word) (M : Nat) (u : ℚ) (m m' : Nat) (x : Token)
    (h : m ≤ m') (hx : msCandSpec s M u m' x) : msCandSpec s M u m x := by
  obtain ⟨h1, h2⟩ := hx
  exact ⟨by omega, h2⟩

theorem msFindLoop_take_picks (s : Word) (M : Nat) (u : ℚ) :
    ∀ (d m k fuel : Nat) (pool : List Token),
      s.length - m ≤ d → 2 ≤ M →
      (∀ x, x ∈ pool ↔ msCandSpec s M u m x) →
      pool.Pairwise (msKeyLe · · = true) →
      pool.length ≤ fuel →
      k ≤ 100 →
      msFindLoop fuel k pool = (msPicks s M u m).take (101 - k) := by
  intro d
  induction d with
  | zero =>
    intro m k fuel pool hd hM hmem hpw hfuel hk
    have hpool : pool = [] := by
      rw [List.eq_nil_iff_forall_not_mem]
      intro x hx
      exact msCandSpec_empty s M u m x (by omega) ((hmem x).mp hx)
    subst hpool
    rw [msPicks_nil s M u m (by omega) hM, List.take_nil]
    cases fuel <;> simp [msFindLoop]
  | succ d ih =>
    intro m k fuel pool hd hM hmem hpw hfuel hk
    by_cases hsm : s.length - m < 2
    · have hpool : pool = [] := by
        rw [List.eq_nil_iff_forall_not_mem]
        intro x hx
        exact msCandSpec_empty s M u m x hsm ((hmem x).mp hx)
      subst hpool
      rw [msPicks_nil s M u m hsm hM, List.take_nil]
      cases fuel <;> simp [msFindLoop]
    · push_neg at hsm
      have hL2 : 2 ≤ min M (s.length - m) := by omega
      obtain ⟨t', hpool⟩ := pool_shape s M u m pool hmem hpw hsm hM
      subst hpool
      match fuel, hfuel with
      | f + 1, hfuel =>
        rw [msPicks_cons s M u m hsm hM]
        obtain ⟨j, hj⟩ : ∃ j, 101 - k = j + 1 := ⟨100 - k, by omega⟩
        rw [hj, List.take_succ_cons]
        simp only [msFindLoop]
        split
        case isTrue hemp =>
          have ht' : t' = [] := List.isEmpty_iff.mp hemp
          subst ht'
          have hnil : s.length - (m + min M (s.length - m)) < 2 := by
            by_contra hc
            push_neg at hc
            have hspec2 := cstar_spec s M u (m + min M (s.length - m)) hc hM
            have hspec2' := msCandSpec_mono s M u m _ _ (by omega) hspec2
            have hin := (hmem _).mpr hspec2'
            have heq := List.mem_singleton.mp hin
            have hb := congrArg Token.b heq
            simp only [greedyChunkTok] at hb
            omega
          rw [msPicks_nil s M u _ hnil hM, List.take_nil]
        case isFalse hemp =>
          split
          case isTrue hcapfire =>
            have hj0 : j = 0 := by omega
            rw [hj0, List.take_zero]
          case isFalse hcapfire =>
            congr 1
            rw [show j = 101 - (k + 1) by omega]
            apply ih
            · omega
            · exact hM
            · intro x
              constructor
              · intro hx
                have hxt := List.mem_of_mem_filter hx
                have hpred := List.of_mem_filter hx
                have hspec : msCandSpec s M u m x :=
                  (hmem x).mp (List.mem_cons_of_mem _ hxt)
                obtain ⟨hs1, hs2, hs3, hs4, hs5, hs6, hs7⟩ := hspec
                simp only [Bool.not_eq_true', msOverlapsPick,
                  Bool.or_eq_false_iff, Bool.and_eq_false_iff,
                  decide_eq_false_iff_not, not_lt, greedyChunkTok] at hpred
                refine ⟨by omega, hs2, hs3, hs4, hs5, hs6, hs7⟩
              · intro hx
                obtain ⟨hs1, hs2, hs3, hs4, hs5, hs6, hs7⟩ := hx
                have hspec' : msCandSpec s M u m x :=
                  ⟨by omega, hs2, hs3, hs4, hs5, hs6, hs7⟩
                have hin := (hmem x).mpr hspec'
                rcases List.mem_cons.mp hin with heq | hxt
                · exfalso
                  have hb := congrArg Token.b heq
                  simp only [greedyChunkTok] at hb
                  omega
                · refine List.mem_filter.mpr ⟨hxt, ?_⟩
                  simp only [Bool.not_eq_true', msOverlapsPick,
                    Bool.or_eq_false_iff, Bool.and_eq_false_iff,
                    decide_eq_false_iff_not, not_lt, greedyChunkTok]
                  constructor
                  · exact Or.inl (by omega)
                  · exact Or.inl (by omega)
            · exact List.Pairwise.sublist (List.filter_sublist t')
                (List.Pairwise.of_cons hpw)
            · have := List.length_filter_le
                (fun c => ! msOverlapsPick (greedyChunkTok s u m
                  (min M (s.length - m))) c) t'
              simp only [List.length_cons] at hfuel
              omega
            · omega

theorem msPicks_chain (s : Word) (M : Nat) (u : ℚ) :
    ∀ (d m : Nat), s.length - m ≤ d → 2 ≤ M →
      List.Chain' (fun a b : Token => a.e = b.b) (msPicks s M u m) := by
  intro d
  induction d with
  | zero =>
    intro m hd hM
    rw [msPicks_nil s M u m (by omega) hM]
    simp
  | succ d ih =>
    intro m hd hM
    by_cases hsm : s.length - m < 2
    · rw [msPicks_nil s M u m hsm hM]
      simp
    · push_neg at hsm
      have hL2 : 2 ≤ min M (s.length - m) := by omega
      rw [msPicks_cons s M u m hsm hM]
      rw [List.chain'_cons']
      constructor
      · intro y hy
        by_cases h2 : s.length - (m + min M (s.length - m)) < 2
        · rw [msPicks_nil s M u _ h2 hM] at hy
          simp at hy
        · push_neg at h2
          rw [msPicks_cons s M u _ h2 hM] at hy
          simp only [List.head?_cons, Option.mem_def, Option.some.injEq] at hy
          rw [← hy]
          simp [greedyChunkTok]
      · exact ih (m + min M (s.length - m)) (by omega) hM

theorem msPicks_mem_facts (s : Word) (M : Nat) (u : ℚ) :
    ∀ (d m : Nat), s.length - m ≤ d → 2 ≤ M →
      ∀ x ∈ msPicks s M u m, m ≤ x.b ∧ x.b + 2 ≤ s.length := by
  intro d
  induction d with
  | zero =>
    intro m hd hM x hx
    rw [msPicks_nil s M u m (by omega) hM] at hx
    simp at hx
  | succ d ih =>
    intro m hd hM x hx
    by_cases hsm : s.length - m < 2
    · rw [msPicks_nil s M u m hsm hM] at hx
      simp at hx
    · push_neg at hsm
      have hL2 : 2 ≤ min M (s.length - m) := by omega
      rw [msPicks_cons s M u m hsm hM] at hx
      rcases List.mem_cons.mp hx with rfl | hx'
      · simp only [greedyChunkTok]
        omega
      · have := ih (m + min M (s.length - m)) (by omega) hM x hx'
        omega

theorem msPicks_pairwise_b (s : Word) (M : Nat) (u : ℚ) :
    ∀ (d m : Nat), s.length - m ≤ d → 2 ≤ M →
      (msPicks s M u m).Pairwise (tokBLe · · = true) := by
  intro d
  induction d with
  | zero =>
    intro m hd hM
    rw [msPicks_nil s M u m (by omega) hM]
    simp
  | succ d ih =>
    intro m hd hM
    by_cases hsm : s.length - m < 2
    · rw [msPicks_nil s M u m hsm hM]
      simp
    · push_neg at hsm
      have hL2 : 2 ≤ min M (s.length - m) := by omega
      rw [msPicks_cons s M u m hsm hM]
      refine List.Pairwise.cons ?_ (ih (m + min M (s.length - m)) (by omega) hM)
      intro y hy
      have := msPicks_mem_facts s M u (s.length - (m + min M (s.length - m)))
        (m + min M (s.length - m)) (le_refl _) hM y hy
      simp only [tokBLe, decide_eq_true_eq, greedyChunkTok]
      omega

theorem msPicks_last (s : Word) (M : Nat) (u : ℚ) :
    ∀ (d m : Nat), s.length - m ≤ d → 2 ≤ s.length - m → 2 ≤ M →
      ∃ lt, (msPicks s M u m).getLast? = some lt ∧
        lt.e = (if (s.length - m) % M = 1 then s.length - 1 else s.length) := by
  intro d
  induction d with
  | zero =>
    intro m hd h2 hM
    omega
  | succ d ih =>
    intro m hd h2 hM
    have hL2 : 2 ≤ min M (s.length - m) := by omega
    rw [msPicks_cons s M u m h2 hM]
    by_cases hnext : s.length - (m + min M (s.length - m)) < 2
    · rw [msPicks_nil s M u _ hnext hM]
      refine ⟨greedyChunkTok s u m (min M (s.length - m)), rfl, ?_⟩
      simp only [greedyChunkTok]
      rcases le_or_lt (s.length - m) M with hle | hgt
      · have hmin : min M (s.length - m) = s.length - m := by omega
        rw [hmin]
        rcases lt_or_eq_of_le hle with hlt | heq
        · have hmod : (s.length - m) % M = s.length - m := Nat.mod_eq_of_lt hlt
          rw [hmod, if_neg (by omega)]
          omega
        · have hmod : (s.length - m) % M = 0 := by
            rw [heq]
            exact Nat.mod_self M
          rw [hmod]
          rw [if_neg (by omega)]
          omega
      · have hmin : min M (s.length - m) = M := by omega
        rw [hmin]
        have heq1 : s.length - m = M + 1 := by omega
        have hmod : (s.length - m) % M = 1 := by
          rw [heq1, Nat.add_mod_left]
          exact Nat.mod_eq_of_lt (by omega)
        rw [hmod, if_pos rfl]
        omega
    · push_neg at hnext
      have hmin : min M (s.length - m) = M := by
        rcases le_or_lt (s.length - m) M with hle | hgt
        · omega
        · omega
      obtain ⟨lt, hlast, hlte⟩ := ih (m + min M (s.length - m)) (by omega)
        hnext hM
      have hpickcons := msPicks_cons s M u (m + min M (s.length - m)) hnext hM
      refine ⟨lt, ?_, ?_⟩
      · rw [hpickcons] at hlast ⊢
        rw [List.getLast?_cons_cons]
        exact hlast
      · rw [hlte]
        have hmod : (s.length - m) % M = (s.length - (m + min M (s.length - m))) % M := by
          rw [hmin]
          have hsub : s.length - (m + M) = s.length - m - M := by omega
          rw [hsub]
          exact Nat.mod_eq_sub_mod (by omega)
        rw [hmod]

theorem msPicks_regimeB (s : Word) (M : Nat) (u : ℚ) (hM : 2 ≤ M)
    (hcap : s.length ≤ 102 * M) (hA : 101 < (msPicks s M u 0).length) :
    (s.length / M = 101 ∧ 2 ≤ s.length % M) ∨
      (s.length / M = 102 ∧ s.length % M = 0) := by
  rw [msPicks_length, Nat.sub_zero] at hA
  have hdm := Nat.div_add_mod s.length M
  have hcomm : M * (s.length / M) = s.length / M * M := Nat.mul_comm _ _
  have hrlt : s.length % M < M := Nat.mod_lt _ (by omega)
  by_cases h2 : 2 ≤ s.length % M
  · rw [if_pos h2] at hA
    left
    refine ⟨?_, h2⟩
    by_contra hqne
    have hq102 : 102 ≤ s.length / M := by omega
    have hmul : 102 * M ≤ s.length / M * M := Nat.mul_le_mul_right M hq102
    omega
  · rw [if_neg h2] at hA
    right
    have hq102 : 102 ≤ s.length / M := by omega
    have hmulLo : 102 * M ≤ s.length / M * M := Nat.mul_le_mul_right M hq102
    have hqeq : s.length / M = 102 := by
      by_contra hqne
      have hq103 : 103 ≤ s.length / M := by omega
      have hmul : 103 * M ≤ s.length / M * M := Nat.mul_le_mul_right M hq103
      omega
    exact ⟨hqeq, by omega⟩

theorem msPicks_take_B (s : Word) (M : Nat) (u : ℚ)
    (hB : (s.length / M = 101 ∧ 2 ≤ s.length % M) ∨
      (s.length / M = 102 ∧ s.length % M = 0)) :
    (msPicks s M u 0).take 101 =
      (List.range 101).map (fun k => greedyChunkTok s u (k * M) M) := by
  rcases hB with ⟨hq, h2⟩ | ⟨hq, h0⟩
  · have hpicks : msPicks s M u 0 =
        (List.range 101).map (fun k => greedyChunkTok s u (0 + k * M) M) ++
          [greedyChunkTok s u (0 + 101 * M) (s.length % M)] := by
      simp only [msPicks, Nat.sub_zero, hq]
      rw [if_pos h2]
    rw [hpicks, List.take_left' (by simp)]
    apply List.map_congr_left
    intro k _
    rw [Nat.zero_add]
  · have hpicks : msPicks s M u 0 =
        (List.range 102).map (fun k => greedyChunkTok s u (0 + k * M) M) := by
      simp only [msPicks, Nat.sub_zero, hq]
      rw [if_neg (by omega), List.append_nil]
    rw [hpicks, show (102 : Nat) = 101 + 1 from rfl, List.range_succ,
      List.map_append, List.take_left' (by simp)]
    apply List.map_congr_left
    intro k _
    rw [Nat.zero_add]

theorem msAddInter_eq_nil (v : ℚ) (t : Word) (off : Nat) :
    ∀ l : List Token, List.Chain' (fun a b : Token => a.e = b.b) l →
      msAddInter v t l off = [] := by
  intro l
  induction l with
  | nil => intro _; rfl
  | cons a l' ih =>
    intro hc
    match l' , hc, ih with
    | [], _, _ => rfl
    | b :: l'', hc, ih =>
      have hab : a.e = b.b := (List.chain'_cons.mp hc).1
      have hrest := ih ((List.chain'_cons.mp hc).2)
      simp only [msAddInter] at hrest ⊢
      simp only [List.tail_cons, List.zip_cons_cons, List.filterMap_cons] at hrest ⊢
      rw [if_pos hab]
      exact hrest

theorem greedySplit_decomp (s : Word) (M : Nat) (u : ℚ) (hM : 2 ≤ M)
    (hn : 2 < s.length) :
    greedySplit s M u = msPicks s M u 0 ++
      (if s.length % M = 1 then [greedyChunkTok s u (s.length - 1) 1]
       else []) := by
  simp only [greedySplit, msPicks, Nat.sub_zero]
  have hchunks : (List.range (s.length / M)).map
        (fun k => greedyChunkTok s u (k * M) M) =
      (List.range (s.length / M)).map
        (fun k => greedyChunkTok s u (0 + k * M) M) := by
    apply List.map_congr_left
    intro k _
    rw [Nat.zero_add]
  rw [hchunks, List.append_assoc]
  congr 1
  have hdm := Nat.div_add_mod s.length M
  have hcomm : M * (s.length / M) = s.length / M * M := Nat.mul_comm _ _
  by_cases h0 : s.length % M = 0
  · simp [h0]
  · by_cases h1 : s.length % M = 1
    · rw [if_neg h0, if_pos h1, if_neg (by omega), List.nil_append]
      have hq : s.length / M * M = s.length - 1 := by omega
      rw [h1, hq]
    · have h2 : 2 ≤ s.length % M := by omega
      rw [if_neg h0, if_pos h2, if_neg h1, List.append_nil, Nat.zero_add]

theorem addLast_tok_eq (s : Word) (u : ℚ) (hn : 2 < s.length) :
    tailTok s u = greedyChunkTok s u (s.length - 1) 1 := by
  simp only [tailTok]
  have hlen : (s.drop (s.length - 1)).length = 1 := by
    rw [List.length_drop]
    omega
  have hword : s.drop (s.length - 1) =
      pySlice s (s.length - 1) (s.length - 1 + 1) := by
    simp only [pySlice]
    have h1 : s.length - 1 + 1 - (s.length - 1) = 1 := by omega
    rw [h1]
    exact (List.take_of_length_le (by omega)).symm
  ext
  · rw [hword]
    rfl
  · rfl
  · simp only [greedyChunkTok]
    omega
  · rfl
  · rw [hlen]
    rfl

theorem dropTok_eq_chunk (s : Word) (u : ℚ) (b len : Nat)
    (hb : b + len = s.length) :
    ({ word := s.drop b, b := b, e := s.length, score := u,
       length := (s.drop b).length } : Token) =
      greedyChunkTok s u b len := by
  have hlen : (s.drop b).length = len := by
    rw [List.length_drop]
    omega
  have hword : s.drop b = pySlice s b (b + len) := by
    simp only [pySlice]
    have h1 : b + len - b = len := by omega
    rw [h1]
    exact (List.take_of_length_le (by omega)).symm
  ext
  · rw [hword]
    rfl
  · rfl
  · simp only [greedyChunkTok]
    omega
  · rfl
  · rw [hlen]
    rfl

theorem greedySplit_B (s : Word) (M : Nat) (u : ℚ)
    (hB : (s.length / M = 101 ∧ 2 ≤ s.length % M) ∨
      (s.length / M = 102 ∧ s.length % M = 0)) :
    greedySplit s M u =
      (List.range 101).map (fun k => greedyChunkTok s u (k * M) M) ++
        [greedyChunkTok s u (101 * M) (s.length - 101 * M)] := by
  have e1 := Nat.div_add_mod s.length M
  rcases hB with ⟨hq, h2⟩ | ⟨hq, h0⟩
  · rw [hq] at e1
    have e2 : M * 101 = 101 * M := Nat.mul_comm _ _
    have hrem : s.length % M = s.length - 101 * M := by omega
    simp only [greedySplit, hq]
    rw [if_neg (by omega), hrem]
  · rw [hq] at e1
    have e2 : M * 102 = 101 * M + M := by ring
    have hlen2 : M = s.length - 101 * M := by omega
    simp only [greedySplit, hq]
    rw [if_pos h0, List.append_nil]
    rw [show (102 : Nat) = 101 + 1 from rfl, List.range_succ, List.map_append]
    congr 1
    simp only [List.map_cons, List.map_nil]
    rw [← hlen2]

theorem c6_regimeA (s : Word) (M : Nat) (u : ℚ) (hn : 2 < s.length)
    (hM : 2 ≤ M)
    (hresult : msFind (msInit [] M u s 0) = msPicks s M u 0) :
    msRecursive [] M u s 0 = some (greedySplit s M u) := by
  have hhead : (msPicks s M u 0).head? =
      some (greedyChunkTok s u 0 (min M (s.length - 0))) := by
    rw [msPicks_cons s M u 0 (by omega) hM]
    rfl
  obtain ⟨lt, hlast, hlte⟩ :=
    msPicks_last s M u s.length 0 (by omega) (by omega) hM
  simp only [Nat.sub_zero] at hlte
  have hinter : msAddInter u s (msPicks s M u 0) 0 = [] :=
    msAddInter_eq_nil u s 0 _ (msPicks_chain s M u s.length 0 (by omega) hM)
  simp only [msRecursive]
  rw [if_neg (by omega)]
  rw [hresult, hhead, hlast]
  simp only [hinter, List.nil_append]
  rw [if_neg (show ¬ (greedyChunkTok s u 0 (min M (s.length - 0))).b ≠ 0 by
    simp [greedyChunkTok])]
  rw [List.append_nil]
  by_cases h1 : s.length % M = 1
  · have hlte' : lt.e = s.length - 1 := by rw [hlte, if_pos h1]
    rw [if_pos (show lt.e ≠ s.length by omega)]
    have haddlast : msAddLast [] u s lt = [tailTok s u] := by
      simp only [msAddLast, tailTok, hlte']
      simp [dictGetD, dictFind]
    rw [haddlast]
    have hpw : (msPicks s M u 0 ++ [tailTok s u]).Pairwise
        (tokBLe · · = true) := by
      rw [List.pairwise_append]
      refine ⟨msPicks_pairwise_b s M u s.length 0 (by omega) hM, by simp, ?_⟩
      intro x hx y hy
      have hxf := msPicks_mem_facts s M u s.length 0 (by omega) hM x hx
      have hy' : y = tailTok s u := by simpa using hy
      subst hy'
      simp only [tokBLe, decide_eq_true_eq, tailTok]
      omega
    rw [sortBy_eq_self hpw]
    rw [greedySplit_decomp s M u hM hn, if_pos h1]
    rw [addLast_tok_eq s u hn]
  · have hlte' : lt.e = s.length := by rw [hlte, if_neg h1]
    rw [if_neg (show ¬ lt.e ≠ s.length by omega), List.append_nil]
    rw [sortBy_eq_self (msPicks_pairwise_b s M u s.length 0 (by omega) hM)]
    rw [greedySplit_decomp s M u hM hn, if_neg h1, List.append_nil]

/-- Claim C6 (amended): for every word of length `n` with `2 < n`, every
`max_length ≥ 2` and an empty dictionary, the MaxScore segmenter returns
the longest-first greedy split — chunks of exactly `max_length` characters
from the start of the word followed by the remainder — provided
`n ≤ 102 * max_length`.  Up to `101 * max_length + 1` characters the
selection loop finishes all its picks; between that and `102 * max_length`
the 100-iteration cap drops exactly the final pick, but
`_add_last_subtoken` rebuilds the very same token from the uncovered tail,
so the output is still the greedy split.  Beyond `102 * max_length` the
merged tail genuinely differs from the greedy chunks. -/
theorem c6_empty_dict_greedy_split (s : Word) (M : Nat) (u : ℚ)
    (hn : 2 < s.length) (hM : 2 ≤ M) (hcap : s.length ≤ 102 * M) :
    msRecursive [] M u s 0 = some (greedySplit s M u) := by
  have hfind : msFindLoop (msInit [] M u s 0).length 0 (msInit [] M u s 0) =
      (msPicks s M u 0).take (101 - 0) := by
    apply msFindLoop_take_picks s M u s.length 0 0
    · omega
    · exact hM
    · intro x
      rw [msInit, mem_sortBy, mem_msInitCands_nil]
    · exact sortBy_pairwise msKeyLe_total msKeyLe_trans _
    · exact le_refl _
    · omega
  rw [Nat.sub_zero] at hfind
  by_cases hA : (msPicks s M u 0).length ≤ 101
  · rw [List.take_of_length_le hA] at hfind
    have hresult : msFind (msInit [] M u s 0) = msPicks s M u 0 := by
      rw [msFind, hfind]
      exact sortBy_eq_self (msPicks_pairwise_b s M u s.length 0 (by omega) hM)
    exact c6_regimeA s M u hn hM hresult
  · push_neg at hA
    have hB := msPicks_regimeB s M u hM hcap hA
    rw [msPicks_take_B s M u hB] at hfind
    have hpwC : ((List.range 101).map
        (fun k => greedyChunkTok s u (k * M) M)).Pairwise
        (tokBLe · · = true) := by
      rw [← msPicks_take_B s M u hB]
      exact List.Pairwise.sublist (List.take_sublist _ _)
        (msPicks_pairwise_b s M u s.length 0 (by omega) hM)
    have hresult : msFind (msInit [] M u s 0) =
        (List.range 101).map (fun k => greedyChunkTok s u (k * M) M) := by
      rw [msFind, hfind]
      exact sortBy_eq_self hpwC
    have hdm := Nat.div_add_mod s.length M
    have hcomm : M * (s.length / M) = s.length / M * M := Nat.mul_comm _ _
    have hn101 : 101 * M + 2 ≤ s.length := by
      rcases hB with ⟨hq, h2⟩ | ⟨hq, h0⟩
      · have hmul : 101 * M ≤ s.length / M * M :=
          Nat.mul_le_mul_right M (by omega)
        omega
      · have hmul : 102 * M ≤ s.length / M * M :=
          Nat.mul_le_mul_right M (by omega)
        omega
    have hheadC : ((List.range 101).map
        (fun k => greedyChunkTok s u (k * M) M)).head? =
        some (greedyChunkTok s u (0 * M) M) := by
      rw [show (101 : Nat) = 100 + 1 from rfl, List.range_succ_eq_map]
      rfl
    have hlastC : ((List.range 101).map
        (fun k => greedyChunkTok s u (k * M) M)).getLast? =
        some (greedyChunkTok s u (100 * M) M) := by
      rw [show (101 : Nat) = 100 + 1 from rfl, List.range_succ,
        List.map_append]
      simp only [List.map_cons, List.map_nil]
      exact List.getLast?_concat _
    have hchainC : List.Chain' (fun a b : Token => a.e = b.b)
        ((List.range 101).map (fun k => greedyChunkTok s u (k * M) M)) := by
      rw [List.chain'_map]
      rw [show (101 : Nat) = 100 + 1 from rfl]
      rw [List.chain'_range_succ]
      intro i hi
      simp only [greedyChunkTok]
      rw [Nat.succ_eq_add_one]
      ring
    have hinterC : msAddInter u s
        ((List.range 101).map (fun k => greedyChunkTok s u (k * M) M)) 0 =
        [] := msAddInter_eq_nil u s 0 _ hchainC
    have haddlast : msAddLast [] u s (greedyChunkTok s u (100 * M) M) =
        [{ word := s.drop (101 * M), b := 101 * M, e := s.length, score := u,
           length := (s.drop (101 * M)).length }] := by
      have he : (greedyChunkTok s u (100 * M) M).e = 101 * M := by
        simp only [greedyChunkTok]
        ring
      simp only [msAddLast, he]
      simp [dictGetD, dictFind]
    have htokeq :
        ({ word := s.drop (101 * M), b := 101 * M, e := s.length, score := u,
           length := (s.drop (101 * M)).length } : Token) =
          greedyChunkTok s u (101 * M) (s.length - 101 * M) :=
      dropTok_eq_chunk s u (101 * M) (s.length - 101 * M) (by omega)
    have hpwAll : (((List.range 101).map
          (fun k => greedyChunkTok s u (k * M) M)) ++
          [greedyChunkTok s u (101 * M) (s.length - 101 * M)]).Pairwise
        (tokBLe · · = true) := by
      rw [List.pairwise_append]
      refine ⟨hpwC, by simp, ?_⟩
      intro x hx y hy
      obtain ⟨i, hi, rfl⟩ := List.mem_map.mp hx
      have hi' := List.mem_range.mp hi
      have hy' : y = greedyChunkTok s u (101 * M) (s.length - 101 * M) := by
        simpa using hy
      subst hy'
      have hxb : i * M ≤ 100 * M := Nat.mul_le_mul_right M (by omega)
      simp only [tokBLe, decide_eq_true_eq, greedyChunkTok]
      omega
    simp only [msRecursive]
    rw [if_neg (by omega)]
    rw [hresult, hheadC, hlastC]
    simp only [hinterC, List.nil_append]
    rw [if_neg (show ¬ (greedyChunkTok s u (0 * M) M).b ≠ 0 by
      simp [greedyChunkTok])]
    rw [List.append_nil]
    rw [if_pos (show (greedyChunkTok s u (100 * M) M).e ≠ s.length by
      simp only [greedyChunkTok]
      omega)]
    rw [haddlast, htokeq]
    rw [sortBy_eq_self hpwAll]
    rw [greedySplit_B s M u hB]

/-- Counterexample to claim C6 as stated: the 205-character word
(`205 = 102 * 2 + 1`, just past the amended bound) with `max_length = 2`
and an empty dictionary satisfies all of the claim's premises, but its
greedy split needs 102 selection rounds while the loop stops after 101,
so the last three characters come back as one token instead of a chunk
`[202, 204)` plus remainder `[204, 205)`. -/
theorem c6_counterexample :
    2 < c6Word.length ∧
      msRecursive [] 2 0 c6Word 0 ≠ some (greedySplit c6Word 2 0) := by
  constructor
  · decide
  · decide

/-- Witness for the amended claim C6 at the concrete word `"abcde"` with
`max_length = 2`. -/
theorem c6_witness :
    (2 < ("abcde".toList).length ∧ 2 ≤ 2 ∧
        ("abcde".toList).length ≤ 102 * 2) ∧
      msRecursive [] 2 0 ("abcde".toList) 0 =
        some (greedySplit ("abcde".toList) 2 0) :=
  ⟨⟨by decide, by decide, by decide⟩,
    c6_empty_dict_greedy_split ("abcde".toList) 2 0 (by decide) (by decide)
      (by decide)⟩


/-- Witness for the amended claim C4: the kept candidate `("ab", "")` of
the concrete pipeline carries the claimed total score. -/
theorem c4_witness :
    c4KeptCand ∈ lrScore lrDefaults [] [] c4Pipeline ∧
      c4KeptCand.total =
        (if c4KeptCand.r = [] then c4KeptCand.scoreL * 2
         else c4KeptCand.scoreL + c4KeptCand.scoreR) +
          dictGetD [] c4KeptCand.l 0 + dictGetD [] c4KeptCand.r 0 :=
  ⟨by decide,
    c4_scorer_drop_iff.1 lrDefaults [] [] c4Pipeline c4KeptCand (by decide)⟩

/-- Witness for claim C9 at concrete dictionaries: the preference word
`"cd"` absent from `Dl = {"ab": 0.5}` is inserted with score 1 and bounds
`lmax`. -/
theorem c9_witness :
    (['c', 'd'] ∈ dictKeys [(['c', 'd'], (1 : ℚ))]) ∧
      (dictHas (lrInit [(['a', 'b'], 1/2)] [] [(['c', 'd'], 1)] []).dl
          ['c', 'd'] = true ∧
        (dictHas [(['a', 'b'], 1/2)] ['c', 'd'] = false →
          dictFind (lrInit [(['a', 'b'], 1/2)] [] [(['c', 'd'], 1)] []).dl
            ['c', 'd'] = some 1) ∧
        (dictHas [(['a', 'b'], 1/2)] ['c', 'd'] = true →
          dictFind (lrInit [(['a', 'b'], 1/2)] [] [(['c', 'd'], 1)] []).dl
            ['c', 'd'] = dictFind [(['a', 'b'], 1/2)] ['c', 'd']) ∧
        (['c', 'd'] : Word).length ≤
          (lrInit [(['a', 'b'], 1/2)] [] [(['c', 'd'], 1)] []).lmax) :=
  ⟨by decide,
    (c9_preference_words [(['a', 'b'], 1/2)] [] [(['c', 'd'], 1)] []
      ['c', 'd']).1 (by decide)⟩

end Proofs
